import Mathlib

/-!
Verification development for the gold-dashboard data pipeline (`src/app.py`).

The pipeline merges irregularly sampled time series into one forward-filled
table, derives indicator columns and scalar signals, and classifies a market
regime from the latest row.  We embed the pipeline shallowly:

* dates are natural numbers, observed values are exact rationals (`ℚ`);
  Python floats are modelled as exact rationals and the float `NaN` of a
  missing cell is modelled as `Option.none` (`Cell := Option ℚ`), with the
  Python semantics that any comparison against `NaN` is `False` and any
  arithmetic on `NaN` yields `NaN`;
* a pandas `DataFrame` is a `Frame`: a list of column names plus rows, each
  row a date paired with one `Cell` per column;
* the fallible part (`st.stop` when the anchor series is missing,
  `app.py` lines 328–334) is modelled with `Except`.
-/

/-- A cell of the aligned table: `none` models a pandas `NaN`. -/
abbrev Cell := Option ℚ

/-- `orElse'` keeps the current cell when present, otherwise the carried
forward value; this is the single-cell step of pandas `ffill`. -/
def orElse' (a c : Cell) : Cell :=
  match a with
  | some v => some v
  | none => c

/-- Arithmetic on possibly-missing cells: `NaN` (here `none`) propagates. -/
def omap2 (f : ℚ → ℚ → ℚ) (a b : Cell) : Cell :=
  match a, b with
  | some x, some y => some (f x y)
  | _, _ => none

/-- Unary arithmetic on a possibly-missing cell. -/
def omap (f : ℚ → ℚ) (a : Cell) : Cell :=
  match a with
  | some x => some (f x)
  | none => none

/-- Python `a > b` where `a` may be `NaN`: comparisons with `NaN` are `False`. -/
def pyGt (a : Cell) (b : ℚ) : Bool :=
  match a with
  | some v => decide (b < v)
  | none => false

/-- Python `a < b` where `a` may be `NaN`: comparisons with `NaN` are `False`. -/
def pyLt (a : Cell) (b : ℚ) : Bool :=
  match a with
  | some v => decide (v < b)
  | none => false

/-- Python `int(q)` on a float: truncation toward zero. -/
def pyInt (q : ℚ) : ℤ :=
  if q < 0 then -(⌊-q⌋) else ⌊q⌋

/-- The FedWatch heuristic of `app.py` lines 320–325: from the gap
`diff = current_ff − implied_rate` with `implied_rate = 100 − latest_fff`,
compute the probability-of-no-change score:
`if diff <= 0: 95  elif diff >= 0.25: 10  else: int(95 - (diff / 0.25) * 85)`. -/
def probNoChange (diff : ℚ) : ℤ :=
  if diff ≤ 0 then 95
  else if (0.25 : ℚ) ≤ diff then 10
  else pyInt (95 - diff / 0.25 * 85)

/-- The mutually exclusive primary regimes of the Signal Classifier
(`app.py` lines 416–438).  The constructors correspond, in order, to the
status texts "宏观逆风" (Macro Headwind), "背离警报" (Divergence Alert),
"极度利多" (Strong Tailwind) and "市场中性" (Neutral). -/
inductive Regime where
  | macroHeadwind
  | divergenceAlert
  | strongTailwind
  | neutral
deriving DecidableEq, Repr

/-- The ordered first-match decision list of `app.py` lines 417–438:
`if fedwatch_prob > 80 and current_spread > -0.15` … The spread is a
cell because `df_all["Fed_Expectations"].iloc[-1]` may be `NaN`. -/
def classifyRegime (prob : ℤ) (spread : Cell) : Regime :=
  if 80 < prob ∧ pyGt spread (-0.15) then .macroHeadwind
  else if 80 < prob ∧ pyLt spread (-0.30) then .divergenceAlert
  else if prob < 50 ∧ pyLt spread (-0.40) then .strongTailwind
  else .neutral

/-- Classic floor-trader pivot levels, in the order the source computes
them (`pivot_p, pivot_r1, pivot_s1, pivot_r2, pivot_s2`). -/
structure PivotLevels where
  p : ℚ
  r1 : ℚ
  s1 : ℚ
  r2 : ℚ
  s2 : ℚ
deriving DecidableEq, Repr

/-- The pivot computation of `app.py` lines 300–304, parameterised on the
`y_high`, `y_low`, `y_close` variables it reads. -/
def pivotCalc (yHigh yLow yClose : ℚ) : PivotLevels :=
  let p := (yHigh + yLow + yClose) / 3
  ⟨p, 2 * p - yLow, 2 * p - yHigh, p + (yHigh - yLow), p - (yHigh - yLow)⟩

/-! ### Raw series and frames -/

/-- A raw fetched series: a logical column name and dated observations, in
provider order (duplicate dates allowed; `keep='last'` wins on merge). -/
structure RawSeries where
  name : String
  points : List (ℕ × ℚ)
deriving DecidableEq, Repr

/-- The value a deduplicated series (`.loc[~index.duplicated(keep='last')]`)
holds at date `d`: the last-arriving observation for `d`, if any. -/
def lookupLast (pts : List (ℕ × ℚ)) (d : ℕ) : Cell :=
  match pts with
  | [] => none
  | (a, v) :: rest =>
    match lookupLast rest d with
    | some w => some w
    | none => if a = d then some v else none

/-- The sorted, duplicate-free union of a bag of dates (pandas outer-join
index): ascending enumeration of the dates that occur. -/
def unionIndex (ds : List ℕ) : List ℕ :=
  (List.range (ds.foldr max 0 + 1)).filter (fun d => decide (d ∈ ds))

/-- A pandas `DataFrame`: column names plus rows (date and one cell per
column). -/
structure Frame where
  names : List String
  rows : List (ℕ × List Cell)
deriving DecidableEq, Repr

/-- The dates of a frame's rows (its index). -/
def Frame.dates (f : Frame) : List ℕ := f.rows.map Prod.fst

/-- Position of a column name in a header (first occurrence). -/
def colPos (c : String) : List String → Option ℕ
  | [] => none
  | n :: rest => if n = c then some 0 else (colPos c rest).map (· + 1)

/-- Cell of a row under a header, addressed by column name. -/
def rowCell (names : List String) (cells : List Cell) (c : String) : Cell :=
  match colPos c names with
  | some j => cells.getD j none
  | none => none

/-- Cell of a frame by column position and date (used when re-aligning a
frame onto a larger index: absent dates read as `NaN`). -/
def frameCellJ (f : Frame) (j : ℕ) (d : ℕ) : Cell :=
  match f.rows.find? (fun r => r.1 == d) with
  | some r => r.2.getD j none
  | none => none

/-- Cell of a frame by column name and date. -/
def cellAtDate (f : Frame) (c : String) (d : ℕ) : Cell :=
  match f.rows.find? (fun r => r.1 == d) with
  | some r => rowCell f.names r.2 c
  | none => none

/-- `pd.concat(series_list, axis=1)` on raw series: outer-join the dates,
sort ascending, and place each (deduplicated) series' value at each date. -/
def reindexFrame (ss : List RawSeries) : Frame :=
  ⟨ss.map (·.name),
   (unionIndex (ss.flatMap (fun s => s.points.map Prod.fst))).map
     (fun d => (d, ss.map (fun s => lookupLast s.points d)))⟩

/-- Pandas `ffill` over the rows, carrying the vector of last seen values. -/
def ffillRows : List Cell → List (ℕ × List Cell) → List (ℕ × List Cell)
  | _, [] => []
  | cs, (d, vs) :: rest =>
    (d, List.zipWith orElse' vs cs) :: ffillRows (List.zipWith orElse' vs cs) rest

/-- `df.ffill()`. -/
def ffillFrame (f : Frame) : Frame :=
  ⟨f.names, ffillRows (f.names.map fun _ => none) f.rows⟩

/-- `df.loc[~df.index.duplicated(keep='last')]`: keep the last row of any
duplicated date. -/
def dedupKeepLast : List (ℕ × List Cell) → List (ℕ × List Cell)
  | [] => []
  | r :: rest =>
    if rest.any (fun x => x.1 == r.1) then dedupKeepLast rest
    else r :: dedupKeepLast rest

/-- The row of cells `pd.concat([f, g], axis=1)` produces at date `d`:
`f`'s columns then `g`'s columns, re-aligned by date. -/
def concatCellsAt (f g : Frame) (d : ℕ) : List Cell :=
  (List.range f.names.length).map (fun j => frameCellJ f j d)
    ++ (List.range g.names.length).map (fun j => frameCellJ g j d)

/-- `pd.concat([f, g], axis=1)`: outer-join of the two indexes; each frame's
columns are re-aligned by date onto the union index. -/
def concatFrames (f g : Frame) : Frame :=
  ⟨f.names ++ g.names,
   (unionIndex (f.dates ++ g.dates)).map fun d => (d, concatCellsAt f g d)⟩

/-- `df[df.index >= start]`. -/
def truncateFrame (f : Frame) (start : ℕ) : Frame :=
  ⟨f.names, f.rows.filter (fun r => decide (start ≤ r.1))⟩

/-- The processing stage of `get_fred_data` (`app.py` lines 226–229):
concatenate, deduplicate, sort, forward-fill, then truncate the result back
to `index >= start_date` (the fetch itself used the earlier buffer start). -/
def fredProcess (ss : List RawSeries) (start : ℕ) : Frame :=
  truncateFrame (ffillFrame (reindexFrame ss)) start

/-- Append a derived column whose value is computed from the row's cells
(`df[n] = f(df[a], df[b], ...)`). -/
def addColBy (f : Frame) (n : String) (g : List String → List Cell → Cell) : Frame :=
  ⟨f.names ++ [n], f.rows.map fun r => (r.1, r.2 ++ [g f.names r.2])⟩

/-- Append a derived column whose value is a function of the row's date
(re-indexing an external series onto this frame's index). -/
def addColDate (f : Frame) (n : String) (h : ℕ → Cell) : Frame :=
  ⟨f.names ++ [n], f.rows.map fun r => (r.1, r.2 ++ [h r.1])⟩

/-- The cells of one named column, top to bottom. -/
def colCells (f : Frame) (c : String) : List Cell :=
  f.rows.map fun r => rowCell f.names r.2 c

/-- `series.rolling(window=w).mean()`: at each position the mean of the last
`w` cells, `NaN` when fewer than `w` positions exist or any cell in the
window is `NaN`. -/
def rollingMean (w : ℕ) (vs : List Cell) : List Cell :=
  (List.range vs.length).map fun i =>
    if w ≤ i + 1 then
      let win := (vs.take (i + 1)).drop (i + 1 - w)
      if win.all (fun c => c.isSome) then
        some ((win.foldr (fun c acc => c.getD 0 + acc) 0) / (w : ℚ))
      else none
    else none

/-- Read a date-indexed series at a date (`series.reindex(index)`, one date). -/
def seriesLookup (ps : List (ℕ × Cell)) (d : ℕ) : Cell :=
  match ps.find? (fun p => p.1 == d) with
  | some p => p.2
  | none => none

/-- `app.py` lines 287–288: the 200-observation moving average of the raw
(baseline, unsliced) `df_yf["Gold"]`, re-indexed onto the table's index. -/
def add200MA (t dfYf : Frame) : Frame :=
  if "Gold" ∈ dfYf.names then
    addColDate t "200MA"
      (seriesLookup (dfYf.dates.zip (rollingMean 200 (colCells dfYf "Gold"))))
  else t

/-- `app.py` lines 307–313: `Fair_CNY = (Gold / 31.1035) * USDCNY`,
`Dom_Spot = Fair_CNY + 8.5`, `Premium = Dom_Spot - Fair_CNY`; when either
input column is absent, `df_all["Premium"] = 0`. -/
def addPremium (t : Frame) : Frame :=
  if "Gold" ∈ t.names ∧ "USDCNY" ∈ t.names then
    let t1 := addColBy t "Fair_CNY" fun ns cs =>
      omap2 (fun gold fx => gold / 31.1035 * fx) (rowCell ns cs "Gold") (rowCell ns cs "USDCNY")
    let t2 := addColBy t1 "Dom_Spot" fun ns cs =>
      omap (fun fair => fair + 8.5) (rowCell ns cs "Fair_CNY")
    addColBy t2 "Premium" fun ns cs =>
      omap2 (fun dom fair => dom - fair) (rowCell ns cs "Dom_Spot") (rowCell ns cs "Fair_CNY")
  else addColBy t "Premium" fun _ _ => some 0

/-- Last non-`NaN` cell of a column: `series.dropna().iloc[-1]`, with `none`
when every cell is missing (in the source that raises and is swallowed by
the bare `except`). -/
def lastSomeList (cs : List Cell) : Cell :=
  cs.foldl (fun acc c => match c with | some v => some v | none => acc) none

/-- `app.py` lines 316–326: the automated FedWatch estimate read from the
latest `FFF` and `FedFunds` values of the table; stays at the initial `90`
when either column is absent or has no value. -/
def fedwatch_prob (t : Frame) : ℤ :=
  if "FFF" ∈ t.names ∧ "FedFunds" ∈ t.names then
    match lastSomeList (colCells t "FFF"), lastSomeList (colCells t "FedFunds") with
    | some latest_fff, some current_ff => probNoChange (current_ff - (100 - latest_fff))
    | _, _ => 90
  else 90

/-- `df_yf["Gold"].shift(1).iloc[-1]`: the second-to-last Gold cell of the
baseline frame (yesterday's close). -/
def prevGoldClose (dfYf : Frame) : Cell :=
  (colCells dfYf "Gold").getD (dfYf.rows.length - 2) none

/-- `app.py` lines 290–305: pivot levels from yesterday's data, with
`y_high`, `y_low` and `y_close` all bound to the same close-only value;
zeros when fewer than three rows exist or the Gold column is missing
(the `except: pass` after the initialisation to zeros). -/
def pivotPoints (dfYf : Frame) : Cell × Cell × Cell × Cell × Cell :=
  if 2 < dfYf.rows.length then
    if "Gold" ∈ dfYf.names then
      let yHigh := prevGoldClose dfYf
      let yLow := prevGoldClose dfYf
      let yClose := prevGoldClose dfYf
      match yHigh, yLow, yClose with
      | some h, some l, some c =>
        let pl := pivotCalc h l c
        (some pl.p, some pl.r1, some pl.r2, some pl.s1, some pl.s2)
      | _, _, _ => (none, none, none, none, none)
    else (some 0, some 0, some 0, some 0, some 0)
  else (some 0, some 0, some 0, some 0, some 0)

/-- `df_all.dropna(subset=["Gold"])` (`app.py` line 330). -/
def dropGoldNa (t : Frame) : Frame :=
  ⟨t.names, t.rows.filter fun r => (rowCell t.names r.2 "Gold").isSome⟩

/-- `app.py` lines 336–340: `10Y_Real = 10Y_Nominal_YF - 10Y_Breakeven_FRED`,
else the constant sentinel `0`. -/
def addReal (t : Frame) : Frame :=
  if "10Y_Nominal_YF" ∈ t.names ∧ "10Y_Breakeven_FRED" ∈ t.names then
    addColBy t "10Y_Real" fun ns cs =>
      omap2 (fun a b => a - b) (rowCell ns cs "10Y_Nominal_YF") (rowCell ns cs "10Y_Breakeven_FRED")
  else addColBy t "10Y_Real" fun _ _ => some 0

/-- `app.py` lines 342–346: `Fed_Expectations = 2Y_Nominal - FedFunds`,
else the constant sentinel `0`. -/
def addFedExp (t : Frame) : Frame :=
  if "2Y_Nominal" ∈ t.names ∧ "FedFunds" ∈ t.names then
    addColBy t "Fed_Expectations" fun ns cs =>
      omap2 (fun a b => a - b) (rowCell ns cs "2Y_Nominal") (rowCell ns cs "FedFunds")
  else addColBy t "Fed_Expectations" fun _ _ => some 0

/-- `app.py` lines 348–352: `Liquidity_Spread = SOFR - FedFunds`, else the
constant sentinel `0`. -/
def addLiquidity (t : Frame) : Frame :=
  if "SOFR" ∈ t.names ∧ "FedFunds" ∈ t.names then
    addColBy t "Liquidity_Spread" fun ns cs =>
      omap2 (fun a b => a - b) (rowCell ns cs "SOFR") (rowCell ns cs "FedFunds")
  else addColBy t "Liquidity_Spread" fun _ _ => some 0

/-- The merge-and-fill step applied to two frames:
`pd.concat([f, g], axis=1)` then
`.loc[~index.duplicated(keep='last')].ffill()`. -/
def mergeDedupFfill (f g : Frame) : Frame :=
  let c := concatFrames f g
  ffillFrame ⟨c.names, dedupKeepLast c.rows⟩

/-- `app.py` lines 274–278: `df_all = pd.concat([df_yf, df_fred], axis=1)`
then `df_all.loc[~df_all.index.duplicated(keep='last')].ffill()`. -/
def mergedTable (yfS fredS : List RawSeries) (start : ℕ) : Frame :=
  mergeDedupFfill (reindexFrame yfS) (fredProcess fredS start)

/-- The output of one evaluation cycle: the final table, the five pivot
levels `(P, R1, R2, S1, S2)` and the FedWatch probability. -/
structure PipeOut where
  table : Frame
  pivots : Cell × Cell × Cell × Cell × Cell
  fedwatchPr : ℤ
deriving DecidableEq, Repr

/-- The evaluation cycle of `app.py` lines 269–352 in source order:
merge and forward-fill, truncate at the display start (line 283), add the
200MA (line 288), pivots (lines 290–305), premium columns (lines 307–313),
FedWatch estimate (lines 316–326), halt if the Gold column is absent
(lines 328–334), drop rows with missing Gold (line 330), then the
real-yield / rate-expectation / liquidity columns (lines 336–352). -/
def runPipeline (yfS fredS : List RawSeries) (start : ℕ) : Except String PipeOut :=
  let df_yf := reindexFrame yfS
  let m := mergedTable yfS fredS start
  let t1 := truncateFrame m start
  let t2 := add200MA t1 df_yf
  let pv := pivotPoints df_yf
  let t3 := addPremium t2
  let fw := fedwatch_prob t3
  if "Gold" ∈ t3.names then
    let t4 := dropGoldNa t3
    .ok ⟨addLiquidity (addFedExp (addReal t4)), pv, fw⟩
  else .error "missing primary series: Gold"

/-- `series.iloc[-1]`: the last row's value of a named column (`NaN`-like
`none` when the table is empty, where the source would raise). -/
def ilocLast (t : Frame) (c : String) : Cell :=
  match t.rows.getLast? with
  | some r => rowCell t.names r.2 c
  | none => none

/-- `app.py` lines 363 and 455–459: `current_premium = df_all["Premium"].iloc[-1]`
and the arbitrage alert `current_premium > 15`. -/
def premiumAlert (t : Frame) : Bool :=
  pyGt (ilocLast t "Premium") 15

/-! ### Window selector (`app.py` lines 162–169, 200–232, 240–270) -/

/-- The sidebar lookback labels (1 month, 3 months, 1 year, 2 years). -/
inductive TimeRange where
  | m1 | m3 | y1 | y2
deriving DecidableEq, Repr

/-- `period_map` of `app.py` lines 247–252. -/
def period_map : TimeRange → String
  | .m1 => "1mo"
  | .m3 => "3mo"
  | .y1 => "1y"
  | .y2 => "2y"

/-- Lines 256–264: `start_date = end_date - timedelta(days=...)`. -/
def lookbackDays : TimeRange → ℕ
  | .m1 => 30
  | .m3 => 90
  | .y1 => 365
  | .y2 => 730

/-- The display start date (`start_date` of `app.py` lines 256–264). -/
def displayStart (now : ℕ) (tr : TimeRange) : ℕ := now - lookbackDays tr

/-- `get_yfinance_data` (`app.py` lines 163–169): whatever period is
requested, the download always uses the fixed `"2y"` baseline. -/
def get_yfinance_data (download : String → List RawSeries) (_period : String) :
    List RawSeries :=
  download "2y"

/-- The fetch step of `get_fred_data` (`app.py` lines 210–214): the provider
is asked for observations from `buffer_start = start_date - 150 days`. -/
def get_fred_data (fetch : ℕ → List RawSeries) (start : ℕ) : List RawSeries :=
  fetch (start - 150)

/-- One full dashboard evaluation (`app.py` lines 240–352): the selected
lookback gives the display start; the market fetch call passes the literal
`"2y"` (line 269); the macro fetch uses the buffered start. -/
def runApp (now : ℕ) (tr : TimeRange) (download : String → List RawSeries)
    (fetch : ℕ → List RawSeries) : Except String PipeOut :=
  let start := displayStart now tr
  runPipeline (get_yfinance_data download "2y") (get_fred_data fetch start) start

/-- Modelled from the spec (§3, §8 "derived columns are computed … over the
full available history, then the table is truncated to `[displayStart, now]`"):
the same cycle with every derived field, and the FedWatch estimate, computed
on the full merged history, the anchor rows dropped, and the truncation
applied last.  Used as the reference order for claim C8. -/
def specOrderPipeline (yfS fredS : List RawSeries) (start : ℕ) : Except String PipeOut :=
  let df_yf := reindexFrame yfS
  let m := mergedTable yfS fredS start
  let s2 := add200MA m df_yf
  let pv := pivotPoints df_yf
  let s3 := addPremium s2
  let fw := fedwatch_prob s3
  if "Gold" ∈ s3.names then
    let s4 := addLiquidity (addFedExp (addReal (dropGoldNa s3)))
    .ok ⟨truncateFrame s4 start, pv, fw⟩
  else .error "missing primary series: Gold"

/-! ### Forward-fill, one column at a time

`ffillCol` is the single-column shadow of `ffillRows`; `lastSomeLE col d` is
the specification side of forward-fill: the most recent non-missing value of
the (date-indexed) column function `col` at or before date `d`. -/

/-- Forward-fill a single dated column with carry `c`. -/
def ffillCol (c : Cell) : List (ℕ × Cell) → List (ℕ × Cell)
  | [] => []
  | (d, v) :: rest => (d, orElse' v c) :: ffillCol (orElse' v c) rest

/-- The most recent non-missing value of column function `col` at or before
date `d`. -/
def lastSomeLE (col : ℕ → Cell) : ℕ → Cell
  | 0 => col 0
  | d + 1 => orElse' (col (d + 1)) (lastSomeLE col d)

/-- The most recent non-missing value of `col` strictly before date `d`. -/
def lastSomeLT (col : ℕ → Cell) : ℕ → Cell
  | 0 => none
  | d + 1 => lastSomeLE col d

theorem orElse'_none_right (a : Cell) : orElse' a none = a := by
  cases a <;> rfl

theorem orElse'_none_left (c : Cell) : orElse' none c = c := rfl

theorem lastSomeLE_congr {col col' : ℕ → Cell} (h : ∀ e, col e = col' e) (d : ℕ) :
    lastSomeLE col d = lastSomeLE col' d := by
  induction d with
  | zero => simpa [lastSomeLE] using h 0
  | succ d ih => simp [lastSomeLE, ih, h (d + 1)]

/-- If `col` has no value in the window `[a, b)`, looking strictly before `b`
is the same as looking strictly before `a`. -/
theorem lastSomeLT_gap (col : ℕ → Cell) {a b : ℕ} (hab : a ≤ b)
    (hnone : ∀ e, a ≤ e → e < b → col e = none) :
    lastSomeLT col b = lastSomeLT col a := by
  induction b with
  | zero => rw [Nat.le_zero.mp hab]
  | succ b ih =>
    rcases Nat.eq_or_lt_of_le hab with h | h
    · rw [h]
    · have hb : a ≤ b := Nat.lt_succ_iff.mp h
      have hcb : col b = none := hnone b hb (Nat.lt_succ_self b)
      have : lastSomeLT col b = lastSomeLT col a :=
        ih hb (fun e he heb => hnone e he (Nat.lt_succ_of_lt heb))
      cases b with
      | zero =>
        have ha : a = 0 := Nat.le_zero.mp hb
        simp [lastSomeLT, lastSomeLE, hcb, ha]
      | succ b' =>
        simp only [lastSomeLT, lastSomeLE, hcb, orElse'_none_left] at *
        exact this

theorem lastSomeLE_eq_orElse_LT (col : ℕ → Cell) (d : ℕ) :
    lastSomeLE col d = orElse' (col d) (lastSomeLT col d) := by
  cases d with
  | zero => simp [lastSomeLE, lastSomeLT, orElse'_none_right]
  | succ d => rfl

/-- Forward-fill correctness for one sorted column: if the carry is the most
recent value strictly before the lower bound `lo`, every index date is at
least `lo`, and every date where `col` is non-missing is either listed in
the index or lies before `lo`, then filling produces exactly
`lastSomeLE col` at every index date. -/
theorem ffillCol_spec (col : ℕ → Cell) :
    ∀ (idx : List ℕ) (c : Cell) (lo : ℕ),
      idx.Pairwise (· < ·) →
      (∀ d ∈ idx, lo ≤ d) →
      (∀ e, col e ≠ none → e ∈ idx ∨ e < lo) →
      c = lastSomeLT col lo →
      ffillCol c (idx.map fun d => (d, col d)) = idx.map fun d => (d, lastSomeLE col d)
  | [], _, _, _, _, _, _ => rfl
  | d :: rest, c, lo, hpw, hlo, hsupp, hc => by
    have hlod : lo ≤ d := hlo d (List.mem_cons_self d rest)
    have hgap : lastSomeLT col d = lastSomeLT col lo := by
      refine lastSomeLT_gap col hlod (fun e he hed => ?_)
      by_contra hne
      rcases hsupp e hne with hmem | hlt
      · rcases List.mem_cons.mp hmem with rfl | hmem'
        · exact absurd hed (lt_irrefl e)
        · exact absurd (List.rel_of_pairwise_cons hpw hmem') (Nat.lt_asymm hed)
      · exact absurd hlt (Nat.not_lt.mpr he)
    have hhead : orElse' (col d) c = lastSomeLE col d := by
      rw [hc, ← hgap, ← lastSomeLE_eq_orElse_LT]
    have hrec : ffillCol (orElse' (col d) c) (rest.map fun e => (e, col e)) =
        rest.map fun e => (e, lastSomeLE col e) := by
      refine ffillCol_spec col rest (orElse' (col d) c) (d + 1) hpw.of_cons ?_ ?_ ?_
      · exact fun e he => Nat.succ_le_of_lt (List.rel_of_pairwise_cons hpw he)
      · intro e hne
        rcases hsupp e hne with hmem | hlt
        · rcases List.mem_cons.mp hmem with rfl | hmem'
          · exact Or.inr (Nat.lt_succ_self e)
          · exact Or.inl hmem'
        · exact Or.inr (Nat.lt_succ_of_lt (Nat.lt_of_lt_of_le hlt hlod))
      · rw [hhead]; rfl
    simp only [List.map_cons, ffillCol]
    rw [hrec, hhead]

/-- In a forward-filled column, values only appear going forward: if a later
cell is missing, every earlier cell is missing too. -/
theorem ffillCol_mono (ps : List (ℕ × Cell)) (c : Cell) :
    ∀ v ∈ ffillCol c ps, v.2 = none → c = none := by
  induction ps generalizing c with
  | nil => intro v hv; simp [ffillCol] at hv
  | cons p rest ih =>
    intro v hv hnone
    rcases List.mem_cons.mp hv with rfl | hmem
    · cases hp : p.2 with
      | some w => obtain ⟨d, q⟩ := p; simp_all [ffillCol, orElse']
      | none =>
        obtain ⟨d, q⟩ := p
        simp only at hp; subst hp
        simpa [ffillCol, orElse'] using hnone
    · obtain ⟨d, q⟩ := p
      have := ih (orElse' q c) v ?_ hnone
      · cases hq : q with
        | some w => simp [hq, orElse'] at this
        | none => simpa [hq, orElse'] using this
      · simpa [ffillCol] using hmem

/-! ### List-level infrastructure -/

theorem getD_zipWith_orElse :
    ∀ (a b : List Cell) (j : ℕ), a.length = b.length →
      (List.zipWith orElse' a b).getD j none = orElse' (a.getD j none) (b.getD j none)
  | [], [], _, _ => by simp [orElse'_none_left]
  | [], _ :: _, _, h => by simp at h
  | _ :: _, [], _, h => by simp at h
  | x :: a, y :: b, 0, _ => by simp
  | x :: a, y :: b, j + 1, h => by
    simpa using getD_zipWith_orElse a b j (by simpa using h)

theorem ffillRows_dates (cs : List Cell) (rows : List (ℕ × List Cell)) :
    (ffillRows cs rows).map Prod.fst = rows.map Prod.fst := by
  induction rows generalizing cs with
  | nil => rfl
  | cons r rest ih => obtain ⟨d, vs⟩ := r; simp [ffillRows, ih]

theorem ffillRows_len (cs : List Cell) (rows : List (ℕ × List Cell))
    (h : ∀ r ∈ rows, r.2.length = cs.length) :
    ∀ r ∈ ffillRows cs rows, r.2.length = cs.length := by
  induction rows generalizing cs with
  | nil => intro r hr; simp [ffillRows] at hr
  | cons p rest ih =>
    obtain ⟨d, vs⟩ := p
    intro r hr
    have hlen : vs.length = cs.length := h (d, vs) (List.mem_cons_self _ _)
    have hzl : (List.zipWith orElse' vs cs).length = cs.length := by
      simp [List.length_zipWith, hlen]
    rcases List.mem_cons.mp hr with rfl | hmem
    · simpa using hzl
    · have := ih (List.zipWith orElse' vs cs)
        (fun q hq => by rw [h q (List.mem_cons_of_mem _ hq), hzl]) r hmem
      rw [this, hzl]

/-- Projecting a forward-filled frame onto column position `j` is the same
as forward-filling that column alone. -/
theorem ffillRows_proj (j : ℕ) :
    ∀ (cs : List Cell) (rows : List (ℕ × List Cell)),
      (∀ r ∈ rows, r.2.length = cs.length) →
      (ffillRows cs rows).map (fun r => (r.1, r.2.getD j none)) =
        ffillCol (cs.getD j none) (rows.map fun r => (r.1, r.2.getD j none))
  | _, [], _ => rfl
  | cs, (d, vs) :: rest, h => by
    have hlen : vs.length = cs.length := h (d, vs) (List.mem_cons_self _ _)
    have hget := getD_zipWith_orElse vs cs j hlen
    have hrec := ffillRows_proj j (List.zipWith orElse' vs cs) rest
      (fun q hq => by
        rw [h q (List.mem_cons_of_mem _ hq)]
        simp [List.length_zipWith, hlen])
    simp only [ffillRows, List.map_cons, ffillCol, hget, hrec]

theorem le_foldr_max (ds : List ℕ) : ∀ d ∈ ds, d ≤ ds.foldr max 0 := by
  induction ds with
  | nil => intro d hd; simp at hd
  | cons a rest ih =>
    intro d hd
    rcases List.mem_cons.mp hd with rfl | hmem
    · exact Nat.le_max_left _ _
    · exact Nat.le_trans (ih d hmem) (Nat.le_max_right _ _)

theorem mem_unionIndex {ds : List ℕ} {d : ℕ} : d ∈ unionIndex ds ↔ d ∈ ds := by
  constructor
  · intro h
    have := List.mem_filter.mp h
    simpa using this.2
  · intro h
    refine List.mem_filter.mpr ⟨?_, by simpa using h⟩
    exact List.mem_range.mpr (Nat.lt_succ_of_le (le_foldr_max ds d h))

theorem pairwise_unionIndex (ds : List ℕ) : (unionIndex ds).Pairwise (· < ·) :=
  List.Pairwise.sublist (List.filter_sublist _) (List.pairwise_lt_range _)

theorem nodup_unionIndex (ds : List ℕ) : (unionIndex ds).Nodup :=
  (pairwise_unionIndex ds).imp Nat.ne_of_lt

theorem dedupKeepLast_eq_self :
    ∀ rows : List (ℕ × List Cell), (rows.map Prod.fst).Nodup → dedupKeepLast rows = rows
  | [], _ => rfl
  | r :: rest, h => by
    have hhead : r.1 ∉ rest.map Prod.fst := by
      simpa using (List.nodup_cons.mp h).1
    have hany : rest.any (fun x => x.1 == r.1) = false := by
      rw [List.any_eq_false]
      intro x hx
      have hne : x.1 ≠ r.1 := fun heq => hhead (heq ▸ List.mem_map_of_mem Prod.fst hx)
      simpa using hne
    simp [dedupKeepLast, hany, dedupKeepLast_eq_self rest (List.nodup_cons.mp h).2]

/-! ### Column-name positions -/

theorem colPos_eq_none {c : String} : ∀ {ns : List String}, colPos c ns = none ↔ c ∉ ns
  | [] => by simp [colPos]
  | n :: rest => by
    by_cases hn : n = c
    · simp [colPos, hn]
    · simp only [colPos, if_neg hn, List.mem_cons]
      rw [Option.map_eq_none']
      rw [colPos_eq_none]
      constructor
      · intro h hc
        rcases hc with hc | hc
        · exact hn hc.symm
        · exact h hc
      · intro h hc
        exact h (Or.inr hc)

theorem colPos_lt_length {c : String} :
    ∀ {ns : List String} {j : ℕ}, colPos c ns = some j → j < ns.length
  | [], _, h => by simp [colPos] at h
  | n :: rest, j, h => by
    by_cases hn : n = c
    · simp only [colPos, if_pos hn, Option.some.injEq] at h
      rw [← h]
      simp
    · simp only [colPos, if_neg hn, Option.map_eq_some'] at h
      obtain ⟨k, hk, rfl⟩ := h
      have := colPos_lt_length hk
      simpa using Nat.succ_lt_succ this

theorem colPos_append_of_mem {c : String} :
    ∀ {ns : List String} (ms : List String), c ∈ ns →
      colPos c (ns ++ ms) = colPos c ns
  | [], _, h => by simp at h
  | n :: rest, ms, h => by
    by_cases hn : n = c
    · simp [colPos, hn]
    · have hc : c ∈ rest := by
        rcases List.mem_cons.mp h with rfl | hmem
        · exact absurd rfl hn
        · exact hmem
      simp [colPos, if_neg hn, colPos_append_of_mem ms hc]

theorem colPos_append_of_not_mem {c : String} :
    ∀ {ns : List String} (ms : List String), c ∉ ns →
      colPos c (ns ++ ms) = (colPos c ms).map (· + ns.length)
  | [], ms, _ => by simp
  | n :: rest, ms, h => by
    have hn : n ≠ c := fun hc => h (hc ▸ List.mem_cons_self n rest)
    have hc : c ∉ rest := fun hc => h (List.mem_cons_of_mem n hc)
    show (if n = c then some 0 else (colPos c (rest ++ ms)).map (· + 1)) = _
    rw [if_neg hn, colPos_append_of_not_mem ms hc]
    cases colPos c ms with
    | none => rfl
    | some k =>
      simp only [Option.map_some', List.length_cons]
      congr 1

theorem rowCell_not_mem {ns : List String} {cells : List Cell} {c : String}
    (h : c ∉ ns) : rowCell ns cells c = none := by
  simp [rowCell, colPos_eq_none.mpr h]

theorem rowCell_append_of_mem {ns ms : List String} {cells vs : List Cell} {c : String}
    (hlen : cells.length = ns.length) (h : c ∈ ns) :
    rowCell (ns ++ ms) (cells ++ vs) c = rowCell ns cells c := by
  simp only [rowCell, colPos_append_of_mem ms h]
  cases hp : colPos c ns with
  | none => rfl
  | some j =>
    have hj : j < cells.length := hlen ▸ colPos_lt_length hp
    exact List.getD_append _ _ _ _ hj

theorem rowCell_append_self {ns : List String} {cells : List Cell} {c : String} {v : Cell}
    (hlen : cells.length = ns.length) (h : c ∉ ns) :
    rowCell (ns ++ [c]) (cells ++ [v]) c = v := by
  have h1 : colPos c (ns ++ [c]) = some ns.length := by
    rw [colPos_append_of_not_mem [c] h]
    simp [colPos]
  simp only [rowCell, h1]
  rw [List.getD_append_right _ _ _ _ (Nat.le_of_eq hlen)]
  simp [hlen]

theorem rowCell_append_other {ns : List String} {cells : List Cell} {c n : String} {v : Cell}
    (hlen : cells.length = ns.length) (hne : c ≠ n) :
    rowCell (ns ++ [n]) (cells ++ [v]) c = rowCell ns cells c := by
  by_cases h : c ∈ ns
  · exact rowCell_append_of_mem hlen h
  · rw [rowCell_not_mem h]
    have h1 : colPos c (ns ++ [n]) = none := by
      rw [colPos_append_of_not_mem [n] h]
      simp [colPos, if_neg (Ne.symm hne)]
    simp [rowCell, h1]

/-! ### Frame-level lemmas -/

theorem rowCell_cons {n : String} {ns : List String} {v : Cell} {vs : List Cell} {c : String} :
    rowCell (n :: ns) (v :: vs) c = if n = c then v else rowCell ns vs c := by
  by_cases hn : n = c
  · simp [rowCell, colPos, hn]
  · simp only [rowCell, colPos, if_neg hn]
    cases colPos c ns <;> simp

theorem lastSomeLE_none {col : ℕ → Cell} (h : ∀ e, col e = none) (d : ℕ) :
    lastSomeLE col d = none := by
  induction d with
  | zero => simpa [lastSomeLE] using h 0
  | succ d ih => simp [lastSomeLE, h (d + 1), ih, orElse'_none_left]

theorem lastSomeLE_none_of_le {col : ℕ → Cell} {a b : ℕ} (hab : a ≤ b)
    (h : lastSomeLE col b = none) : lastSomeLE col a = none := by
  induction b with
  | zero => rwa [Nat.le_zero.mp hab]
  | succ b ih =>
    rcases Nat.eq_or_lt_of_le hab with rfl | hlt
    · exact h
    · refine ih (Nat.lt_succ_iff.mp hlt) ?_
      cases hc : col (b + 1) with
      | some v => rw [lastSomeLE, hc] at h; exact absurd h (by simp [orElse'])
      | none => rw [lastSomeLE, hc, orElse'_none_left] at h; exact h

theorem getD_map_nones (ns : List String) (j : ℕ) :
    ((ns.map fun _ => (none : Cell)).getD j none) = none := by
  induction ns generalizing j with
  | nil => simp
  | cons n rest ih => cases j <;> simp [ih]

theorem getD_map_range_lt {α : Type} (h : ℕ → α) (dflt : α) {j n : ℕ} (hj : j < n) :
    (((List.range n).map h).getD j dflt) = h j := by
  rw [List.getD_eq_getElem _ _ (by simpa using hj)]
  simp

theorem find?_eq_none_of_not_mem {rows : List (ℕ × List Cell)} {d : ℕ}
    (h : d ∉ rows.map Prod.fst) : rows.find? (fun r => r.1 == d) = none := by
  rw [List.find?_eq_none]
  intro r hr
  simp only [beq_eq_false_iff_ne, ne_eq, beq_iff_eq]
  intro heq
  exact h (heq ▸ List.mem_map_of_mem Prod.fst hr)

theorem cellAtDate_eq_frameCellJ {f : Frame} {c : String} {j : ℕ}
    (h : colPos c f.names = some j) (d : ℕ) : cellAtDate f c d = frameCellJ f j d := by
  simp only [cellAtDate, frameCellJ, rowCell, h]

theorem cellAtDate_eq_none_of_colPos {f : Frame} {c : String}
    (h : colPos c f.names = none) (d : ℕ) : cellAtDate f c d = none := by
  simp only [cellAtDate, rowCell, h]
  cases f.rows.find? (fun r => r.1 == d) <;> rfl

theorem frameCellJ_mem_of_ne_none {f : Frame} {j d : ℕ}
    (h : frameCellJ f j d ≠ none) : d ∈ f.dates := by
  simp only [frameCellJ] at h
  cases hf : f.rows.find? (fun r => r.1 == d) with
  | none => rw [hf] at h; exact absurd rfl h
  | some r =>
    have hp := List.find?_some hf
    have hm : r ∈ f.rows := List.mem_of_find?_eq_some hf
    have hrd : r.1 = d := by simpa using hp
    exact hrd ▸ List.mem_map_of_mem Prod.fst hm

theorem lookupLast_eq_none {pts : List (ℕ × ℚ)} {d : ℕ}
    (h : d ∉ pts.map Prod.fst) : lookupLast pts d = none := by
  induction pts with
  | nil => rfl
  | cons p rest ih =>
    obtain ⟨a, v⟩ := p
    have hd : a ≠ d := fun heq => h (by simp [heq])
    have hr : d ∉ rest.map Prod.fst := fun hm => h (by simp [hm])
    simp [lookupLast, ih hr, if_neg hd]

/-- Reading back column position `j` through `find?` from rows whose
`j`-projection is `idx.map (fun e => (e, h e))`: at any listed date the cell
is `h d`. -/
theorem find?_proj_eq {j : ℕ} :
    ∀ (rows : List (ℕ × List Cell)) (idx : List ℕ) (h : ℕ → Cell) (d : ℕ),
      rows.map (fun r => (r.1, r.2.getD j none)) = idx.map (fun e => (e, h e)) →
      d ∈ idx →
      (match rows.find? (fun r => r.1 == d) with
       | some r => r.2.getD j none
       | none => none) = h d
  | [], idx, h, d, hproj, hd => by
    have : idx = [] := by
      cases idx with
      | nil => rfl
      | cons e idx' => simp at hproj
    subst this; simp at hd
  | r :: rest, idx, h, d, hproj, hd => by
    cases idx with
    | nil => simp at hproj
    | cons e idx' =>
      simp only [List.map_cons, List.cons.injEq, Prod.mk.injEq] at hproj
      obtain ⟨⟨he, hv⟩, hrest⟩ := hproj
      by_cases hde : r.1 = d
      · have hb : (r.1 == d) = true := beq_iff_eq.mpr hde
        simp only [List.find?_cons, hb, cond_true]
        rw [hv, he.symm.trans hde]
      · have hb : (r.1 == d) = false := beq_eq_false_iff_ne.mpr hde
        simp only [List.find?_cons, hb, cond_false]
        have hd' : d ∈ idx' := by
          rcases List.mem_cons.mp hd with heq | hmem
          · exact absurd (he.trans heq.symm) hde
          · exact hmem
        exact find?_proj_eq rest idx' h d hrest hd'

theorem map_fst_map_pair {α β : Type} (idx : List α) (g : α → β) :
    (idx.map (fun d => (d, g d))).map Prod.fst = idx := by
  induction idx with
  | nil => rfl
  | cons a rest ih => simp only [List.map_cons, ih]

theorem reindexFrame_names (ss : List RawSeries) :
    (reindexFrame ss).names = ss.map (·.name) := rfl

theorem reindexFrame_dates (ss : List RawSeries) :
    (reindexFrame ss).dates =
      unionIndex (ss.flatMap (fun s => s.points.map Prod.fst)) := by
  simp only [reindexFrame, Frame.dates]
  exact map_fst_map_pair _ _

theorem ffillFrame_names (f : Frame) : (ffillFrame f).names = f.names := rfl

theorem ffillFrame_dates (f : Frame) : (ffillFrame f).dates = f.dates := by
  simp [ffillFrame, Frame.dates, ffillRows_dates]

theorem truncateFrame_names (f : Frame) (start : ℕ) :
    (truncateFrame f start).names = f.names := rfl

theorem concatFrames_names (f g : Frame) :
    (concatFrames f g).names = f.names ++ g.names := rfl

theorem concatFrames_dates (f g : Frame) :
    (concatFrames f g).dates = unionIndex (f.dates ++ g.dates) := by
  simp only [concatFrames, Frame.dates]
  exact map_fst_map_pair _ _

theorem mergeDedupFfill_names (f g : Frame) :
    (mergeDedupFfill f g).names = f.names ++ g.names := rfl

theorem concat_dedup_eq_self (f g : Frame) :
    dedupKeepLast (concatFrames f g).rows = (concatFrames f g).rows := by
  refine dedupKeepLast_eq_self _ ?_
  have h : (concatFrames f g).rows.map Prod.fst = unionIndex (f.dates ++ g.dates) :=
    concatFrames_dates f g
  rw [h]
  exact nodup_unionIndex _

theorem mergeDedupFfill_dates (f g : Frame) :
    (mergeDedupFfill f g).dates = unionIndex (f.dates ++ g.dates) := by
  show (ffillFrame ⟨(concatFrames f g).names, dedupKeepLast (concatFrames f g).rows⟩).dates = _
  rw [ffillFrame_dates]
  show (dedupKeepLast (concatFrames f g).rows).map Prod.fst = _
  rw [concat_dedup_eq_self]
  exact concatFrames_dates f g

theorem concatCellsAt_getD (f g : Frame) (d : ℕ) {j : ℕ}
    (hj : j < f.names.length + g.names.length) :
    (concatCellsAt f g d).getD j none =
      if j < f.names.length then frameCellJ f j d
      else frameCellJ g (j - f.names.length) d := by
  by_cases hjf : j < f.names.length
  · rw [if_pos hjf, concatCellsAt,
      List.getD_append _ _ _ _ (by simpa using hjf)]
    exact getD_map_range_lt _ _ hjf
  · rw [if_neg hjf, concatCellsAt,
      List.getD_append_right _ _ _ _ (by simpa using Nat.le_of_not_lt hjf)]
    have hlen : ((List.range f.names.length).map fun j => frameCellJ f j d).length
        = f.names.length := by simp
    rw [hlen]
    exact getD_map_range_lt _ _ (by omega)

/-- The `j`-th column of the merged, deduplicated and forward-filled pair of
frames: at every union date it holds the most recent value of the source
frame's column at or before that date. -/
theorem mergeDedupFfill_proj (f g : Frame) (j : ℕ)
    (hj : j < f.names.length + g.names.length) :
    (mergeDedupFfill f g).rows.map (fun r => (r.1, r.2.getD j none)) =
      (unionIndex (f.dates ++ g.dates)).map
        (fun d => (d, lastSomeLE (fun e =>
          if j < f.names.length then frameCellJ f j e
          else frameCellJ g (j - f.names.length) e) d)) := by
  have hrows : (mergeDedupFfill f g).rows =
      ffillRows ((f.names ++ g.names).map fun _ => none)
        ((unionIndex (f.dates ++ g.dates)).map fun d => (d, concatCellsAt f g d)) := by
    show (ffillFrame ⟨(concatFrames f g).names, dedupKeepLast (concatFrames f g).rows⟩).rows = _
    rw [ffillFrame, concat_dedup_eq_self]
    rfl
  rw [hrows]
  rw [ffillRows_proj j _ _ (by
    intro r hr
    obtain ⟨d, hd, rfl⟩ := List.mem_map.mp hr
    simp [concatCellsAt])]
  rw [getD_map_nones, List.map_map]
  have hcells : ((fun r : ℕ × List Cell => (r.1, r.2.getD j none)) ∘
      fun d => (d, concatCellsAt f g d)) =
      fun d => (d, (concatCellsAt f g d).getD j none) := rfl
  rw [hcells]
  have hcol : (fun d => (d, (concatCellsAt f g d).getD j none)) =
      fun d => (d, (fun e =>
        if j < f.names.length then frameCellJ f j e
        else frameCellJ g (j - f.names.length) e) d) := by
    funext d
    rw [concatCellsAt_getD f g d hj]
  rw [hcol]
  refine ffillCol_spec _ _ none 0 (pairwise_unionIndex _) (fun d _ => Nat.zero_le d)
    (fun e hne => ?_) rfl
  left
  by_cases hjf : j < f.names.length
  · rw [if_pos hjf] at hne
    exact mem_unionIndex.mpr (List.mem_append.mpr (Or.inl (frameCellJ_mem_of_ne_none hne)))
  · rw [if_neg hjf] at hne
    exact mem_unionIndex.mpr (List.mem_append.mpr (Or.inr (frameCellJ_mem_of_ne_none hne)))

/-- Any column coming from the left frame of a merge: after merge, dedup and
fill, its value at every union date is the left frame's most recent value at
or before that date. -/
theorem mergeDedupFfill_cell_left (f g : Frame) {c : String} (hc : c ∈ f.names) {d : ℕ}
    (hd : d ∈ unionIndex (f.dates ++ g.dates)) :
    cellAtDate (mergeDedupFfill f g) c d = lastSomeLE (cellAtDate f c) d := by
  obtain ⟨j, hj⟩ : ∃ j, colPos c f.names = some j := by
    cases h : colPos c f.names with
    | none => exact absurd hc (colPos_eq_none.mp h)
    | some j => exact ⟨j, rfl⟩
  have hjl : j < f.names.length := colPos_lt_length hj
  have hpos : colPos c (mergeDedupFfill f g).names = some j := by
    rw [mergeDedupFfill_names, colPos_append_of_mem _ hc]
    exact hj
  rw [cellAtDate_eq_frameCellJ hpos d]
  have hproj := mergeDedupFfill_proj f g j (by omega)
  have hfind := find?_proj_eq (mergeDedupFfill f g).rows _ _ d hproj hd
  refine Eq.trans hfind ?_
  refine lastSomeLE_congr (fun e => ?_) d
  rw [if_pos hjl]
  exact (cellAtDate_eq_frameCellJ hj e).symm

/-- Any column not present in the left frame (so coming from the right frame
if anywhere): after merge, dedup and fill, its value at every union date is
the right frame's most recent value at or before that date. -/
theorem mergeDedupFfill_cell_right (f g : Frame) {c : String} (hcf : c ∉ f.names) {d : ℕ}
    (hd : d ∈ unionIndex (f.dates ++ g.dates)) :
    cellAtDate (mergeDedupFfill f g) c d = lastSomeLE (cellAtDate g c) d := by
  cases h : colPos c g.names with
  | none =>
    have hmerged : colPos c (mergeDedupFfill f g).names = none := by
      rw [mergeDedupFfill_names, colPos_append_of_not_mem _ hcf, h]
      rfl
    rw [cellAtDate_eq_none_of_colPos hmerged,
      lastSomeLE_none (fun e => cellAtDate_eq_none_of_colPos h e) d]
  | some j' =>
    have hjl : j' < g.names.length := colPos_lt_length h
    have hpos : colPos c (mergeDedupFfill f g).names = some (j' + f.names.length) := by
      rw [mergeDedupFfill_names, colPos_append_of_not_mem _ hcf, h]
      rfl
    rw [cellAtDate_eq_frameCellJ hpos d]
    have hproj := mergeDedupFfill_proj f g (j' + f.names.length) (by omega)
    have hfind := find?_proj_eq (mergeDedupFfill f g).rows _ _ d hproj hd
    refine Eq.trans hfind ?_
    refine lastSomeLE_congr (fun e => ?_) d
    rw [if_neg (by omega), Nat.add_sub_cancel]
    exact (cellAtDate_eq_frameCellJ h e).symm

theorem rowCell_map_series {h : RawSeries → Cell} :
    ∀ (ss : List RawSeries) {s : RawSeries}, (ss.map (·.name)).Nodup → s ∈ ss →
      rowCell (ss.map (·.name)) (ss.map h) s.name = h s
  | [], _, _, hs => by simp at hs
  | t :: rest, s, hn, hs => by
    rcases List.mem_cons.mp hs with rfl | hmem
    · simp [List.map_cons, rowCell_cons]
    · have hn' : (t.name :: rest.map (·.name)).Nodup := hn
      have hne : t.name ≠ s.name := by
        have hmem' : s.name ∈ rest.map (·.name) := List.mem_map_of_mem _ hmem
        have ht : t.name ∉ rest.map (·.name) := (List.nodup_cons.mp hn').1
        exact fun heq => ht (heq ▸ hmem')
      simp only [List.map_cons, rowCell_cons, if_neg hne]
      exact rowCell_map_series rest (List.nodup_cons.mp hn').2 hmem

theorem find?_map_pair {β : Type} :
    ∀ (idx : List ℕ) (g : ℕ → β) {d : ℕ}, d ∈ idx →
      ((idx.map fun e => (e, g e)).find? (fun r => r.1 == d)) = some (d, g d)
  | [], _, _, hd => by simp at hd
  | e :: idx', g, d, hd => by
    by_cases hde : e = d
    · subst hde
      simp [List.find?_cons]
    · have hb : (e == d) = false := beq_eq_false_iff_ne.mpr hde
      have hd' : d ∈ idx' := by
        rcases List.mem_cons.mp hd with heq | hmem
        · exact absurd heq.symm hde
        · exact hmem
      simp only [List.map_cons, List.find?_cons, hb, cond_false]
      exact find?_map_pair idx' g hd'

/-- The value of series `s` in the raw concatenated frame at any date is its
own deduplicated (`keep='last'`) observation there. -/
theorem cellAtDate_reindexFrame (ss : List RawSeries) {s : RawSeries}
    (hn : (ss.map (·.name)).Nodup) (hs : s ∈ ss) (d : ℕ) :
    cellAtDate (reindexFrame ss) s.name d = lookupLast s.points d := by
  by_cases hd : d ∈ unionIndex (ss.flatMap fun t => t.points.map Prod.fst)
  · have hfind := find?_map_pair
      (unionIndex (ss.flatMap fun t => t.points.map Prod.fst))
      (fun e => ss.map fun t => lookupLast t.points e) hd
    show (match (reindexFrame ss).rows.find? (fun r => r.1 == d) with
      | some r => rowCell (reindexFrame ss).names r.2 s.name
      | none => none) = lookupLast s.points d
    rw [show (reindexFrame ss).rows =
      (unionIndex (ss.flatMap fun t => t.points.map Prod.fst)).map
        (fun e => (e, ss.map fun t => lookupLast t.points e)) from rfl, hfind]
    exact rowCell_map_series ss hn hs
  · have hnone : lookupLast s.points d = none := by
      refine lookupLast_eq_none (fun hmem => hd ?_)
      exact mem_unionIndex.mpr (List.mem_flatMap.mpr ⟨s, hs, hmem⟩)
    rw [hnone]
    show (match (reindexFrame ss).rows.find? (fun r => r.1 == d) with
      | some r => rowCell (reindexFrame ss).names r.2 s.name
      | none => none) = none
    rw [find?_eq_none_of_not_mem (by rwa [show (reindexFrame ss).rows.map Prod.fst
      = (reindexFrame ss).dates from rfl, reindexFrame_dates])]

theorem fredProcess_names (ss : List RawSeries) (start : ℕ) :
    (fredProcess ss start).names = ss.map (·.name) := rfl

theorem mergedTable_dates (yfS fredS : List RawSeries) (start : ℕ) :
    (mergedTable yfS fredS start).dates =
      unionIndex ((reindexFrame yfS).dates ++ (fredProcess fredS start).dates) :=
  mergeDedupFfill_dates _ _

/-! ### Well-formed frames and derived-column structure -/

/-- A frame is well formed when every row has one cell per column name. -/
def Frame.WF (f : Frame) : Prop := ∀ r ∈ f.rows, r.2.length = f.names.length

theorem reindexFrame_WF (ss : List RawSeries) : (reindexFrame ss).WF := by
  intro r hr
  obtain ⟨d, _, rfl⟩ := List.mem_map.mp hr
  simp [reindexFrame]

theorem ffillFrame_WF {f : Frame} (h : f.WF) : (ffillFrame f).WF := by
  intro r hr
  have := ffillRows_len (f.names.map fun _ => none) f.rows
    (fun q hq => by rw [h q hq]; simp) r hr
  simpa using this

theorem truncateFrame_WF {f : Frame} (h : f.WF) (start : ℕ) : (truncateFrame f start).WF :=
  fun r hr => h r (List.mem_of_mem_filter hr)

theorem concatFrames_WF (f g : Frame) : (concatFrames f g).WF := by
  intro r hr
  obtain ⟨d, _, rfl⟩ := List.mem_map.mp hr
  simp [concatCellsAt, concatFrames]

theorem dedupKeepLast_sublist :
    ∀ rows : List (ℕ × List Cell), List.Sublist (dedupKeepLast rows) rows
  | [] => List.Sublist.refl []
  | r :: rest => by
    by_cases h : rest.any (fun x => x.1 == r.1)
    · simp only [dedupKeepLast, if_pos h]
      exact List.Sublist.cons r (dedupKeepLast_sublist rest)
    · simp only [dedupKeepLast, if_neg h]
      exact List.Sublist.cons₂ r (dedupKeepLast_sublist rest)

theorem mergeDedupFfill_WF (f g : Frame) : (mergeDedupFfill f g).WF := by
  refine ffillFrame_WF (fun r hr => ?_)
  exact concatFrames_WF f g r ((dedupKeepLast_sublist _).subset hr)

theorem fredProcess_WF (ss : List RawSeries) (start : ℕ) : (fredProcess ss start).WF :=
  truncateFrame_WF (ffillFrame_WF (reindexFrame_WF ss)) start

theorem addColBy_WF {t : Frame} (h : t.WF) (n : String) (g) : (addColBy t n g).WF := by
  intro r hr
  obtain ⟨r₀, hr₀, rfl⟩ := List.mem_map.mp hr
  simp [addColBy, h r₀ hr₀]

theorem addColDate_WF {t : Frame} (h : t.WF) (n : String) (gd) : (addColDate t n gd).WF := by
  intro r hr
  obtain ⟨r₀, hr₀, rfl⟩ := List.mem_map.mp hr
  simp [addColDate, h r₀ hr₀]

theorem add200MA_WF {t : Frame} (h : t.WF) (dfYf : Frame) : (add200MA t dfYf).WF := by
  unfold add200MA
  split
  · exact addColDate_WF h _ _
  · exact h

theorem addPremium_WF {t : Frame} (h : t.WF) : (addPremium t).WF := by
  unfold addPremium
  split
  · exact addColBy_WF (addColBy_WF (addColBy_WF h _ _) _ _) _ _
  · exact addColBy_WF h _ _

theorem dropGoldNa_WF {t : Frame} (h : t.WF) : (dropGoldNa t).WF :=
  fun r hr => h r (List.mem_of_mem_filter hr)

theorem addReal_WF {t : Frame} (h : t.WF) : (addReal t).WF := by
  unfold addReal
  split <;> exact addColBy_WF h _ _

theorem addFedExp_WF {t : Frame} (h : t.WF) : (addFedExp t).WF := by
  unfold addFedExp
  split <;> exact addColBy_WF h _ _

theorem addLiquidity_WF {t : Frame} (h : t.WF) : (addLiquidity t).WF := by
  unfold addLiquidity
  split <;> exact addColBy_WF h _ _

/-- Reading an existing column through an appended derived column. -/
theorem colCells_addColBy_ne {t : Frame} (hWF : t.WF) {n : String} (g) {c : String}
    (hcn : c ≠ n) : colCells (addColBy t n g) c = colCells t c := by
  simp only [colCells, addColBy, List.map_map]
  refine List.map_congr_left (fun r hr => ?_)
  exact rowCell_append_other (hWF r hr) hcn

theorem colCells_addColDate_ne {t : Frame} (hWF : t.WF) {n : String} (gd) {c : String}
    (hcn : c ≠ n) : colCells (addColDate t n gd) c = colCells t c := by
  simp only [colCells, addColDate, List.map_map]
  refine List.map_congr_left (fun r hr => ?_)
  exact rowCell_append_other (hWF r hr) hcn

theorem addColBy_names (t : Frame) (n : String) (g) :
    (addColBy t n g).names = t.names ++ [n] := rfl

theorem addColDate_names (t : Frame) (n : String) (gd) :
    (addColDate t n gd).names = t.names ++ [n] := rfl

theorem dropGoldNa_names (t : Frame) : (dropGoldNa t).names = t.names := rfl

theorem add200MA_names_mem (t dfYf : Frame) {c : String} (hc : c ≠ "200MA") :
    (c ∈ (add200MA t dfYf).names) ↔ c ∈ t.names := by
  unfold add200MA
  split
  · simp [addColDate_names, hc]
  · exact Iff.rfl

theorem addPremium_names_mem (t : Frame) {c : String}
    (h1 : c ≠ "Fair_CNY") (h2 : c ≠ "Dom_Spot") (h3 : c ≠ "Premium") :
    (c ∈ (addPremium t).names) ↔ c ∈ t.names := by
  unfold addPremium
  split
  · simp [addColBy_names, h1, h2, h3]
  · simp [addColBy_names, h3]

/-! ### Truncation commutes with row-wise derived columns -/

theorem truncateFrame_addColBy (t : Frame) (n : String) (g) (start : ℕ) :
    truncateFrame (addColBy t n g) start = addColBy (truncateFrame t start) n g := by
  show Frame.mk _ _ = Frame.mk _ _
  congr 1
  rw [show (addColBy t n g).rows = t.rows.map
    (fun r => (r.1, r.2 ++ [g t.names r.2])) from rfl, List.filter_map]
  rfl

theorem truncateFrame_addColDate (t : Frame) (n : String) (gd) (start : ℕ) :
    truncateFrame (addColDate t n gd) start = addColDate (truncateFrame t start) n gd := by
  show Frame.mk _ _ = Frame.mk _ _
  congr 1
  rw [show (addColDate t n gd).rows = t.rows.map
    (fun r => (r.1, r.2 ++ [gd r.1])) from rfl, List.filter_map]
  rfl

theorem truncateFrame_dropGoldNa (t : Frame) (start : ℕ) :
    truncateFrame (dropGoldNa t) start = dropGoldNa (truncateFrame t start) := by
  show Frame.mk _ _ = Frame.mk _ _
  congr 1
  show (t.rows.filter _).filter _ = (t.rows.filter _).filter _
  rw [List.filter_filter, List.filter_filter]
  congr 1
  funext r
  exact Bool.and_comm _ _

theorem add200MA_truncate (m dfYf : Frame) (start : ℕ) :
    add200MA (truncateFrame m start) dfYf = truncateFrame (add200MA m dfYf) start := by
  unfold add200MA
  by_cases h : "Gold" ∈ dfYf.names
  · rw [if_pos h, if_pos h, truncateFrame_addColDate]
  · rw [if_neg h, if_neg h]

theorem addPremium_truncate (m : Frame) (start : ℕ) :
    addPremium (truncateFrame m start) = truncateFrame (addPremium m) start := by
  unfold addPremium
  simp only [truncateFrame_names]
  by_cases h : "Gold" ∈ m.names ∧ "USDCNY" ∈ m.names
  · rw [if_pos h, if_pos h,
      truncateFrame_addColBy, truncateFrame_addColBy, truncateFrame_addColBy]
  · rw [if_neg h, if_neg h, truncateFrame_addColBy]

theorem addReal_truncate (m : Frame) (start : ℕ) :
    addReal (truncateFrame m start) = truncateFrame (addReal m) start := by
  unfold addReal
  simp only [truncateFrame_names]
  by_cases h : "10Y_Nominal_YF" ∈ m.names ∧ "10Y_Breakeven_FRED" ∈ m.names
  · rw [if_pos h, if_pos h, truncateFrame_addColBy]
  · rw [if_neg h, if_neg h, truncateFrame_addColBy]

theorem addFedExp_truncate (m : Frame) (start : ℕ) :
    addFedExp (truncateFrame m start) = truncateFrame (addFedExp m) start := by
  unfold addFedExp
  simp only [truncateFrame_names]
  by_cases h : "2Y_Nominal" ∈ m.names ∧ "FedFunds" ∈ m.names
  · rw [if_pos h, if_pos h, truncateFrame_addColBy]
  · rw [if_neg h, if_neg h, truncateFrame_addColBy]

theorem addLiquidity_truncate (m : Frame) (start : ℕ) :
    addLiquidity (truncateFrame m start) = truncateFrame (addLiquidity m) start := by
  unfold addLiquidity
  simp only [truncateFrame_names]
  by_cases h : "SOFR" ∈ m.names ∧ "FedFunds" ∈ m.names
  · rw [if_pos h, if_pos h, truncateFrame_addColBy]
  · rw [if_neg h, if_neg h, truncateFrame_addColBy]

/-! ### Last non-missing values under truncation -/

theorem foldl_lastSome (l : List Cell) (a : Cell) :
    l.foldl (fun acc c => match c with | some v => some v | none => acc) a
      = orElse' (lastSomeList l) a := by
  induction l generalizing a with
  | nil => simp [lastSomeList, orElse'_none_left]
  | cons c l ih =>
    show l.foldl _ _ = orElse' (lastSomeList (c :: l)) a
    rw [show lastSomeList (c :: l)
      = l.foldl (fun acc c => match c with | some v => some v | none => acc)
          (match c with | some v => some v | none => none) from rfl]
    rw [ih, ih]
    cases lastSomeList l <;> cases c <;> rfl

theorem lastSomeList_cons (c : Cell) (l : List Cell) :
    lastSomeList (c :: l) = orElse' (lastSomeList l) c := by
  show l.foldl _ _ = _
  rw [foldl_lastSome]
  cases c <;> rfl

theorem orElse'_eq_none {a b : Cell} : orElse' a b = none ↔ a = none ∧ b = none := by
  cases a <;> cases b <;> simp [orElse']

theorem lastSomeList_eq_none_iff (l : List Cell) :
    lastSomeList l = none ↔ ∀ v ∈ l, v = none := by
  induction l with
  | nil => simp [lastSomeList]
  | cons c l ih =>
    rw [lastSomeList_cons, orElse'_eq_none, ih]
    constructor
    · rintro ⟨h1, h2⟩ v hv
      rcases List.mem_cons.mp hv with rfl | hmem
      · exact h2
      · exact h1 v hmem
    · intro h
      exact ⟨fun v hv => h v (List.mem_cons_of_mem _ hv), h c (List.mem_cons_self _ _)⟩

/-- Dropping the head entries of an ascending forward-filled column that lie
before the window start does not change its last non-missing value, as long
as the window retains at least one date. -/
theorem lastSome_filter_ge (col : ℕ → Cell) (start : ℕ) :
    ∀ idx : List ℕ, idx.Pairwise (· < ·) →
      (idx.filter (fun d => decide (start ≤ d))) ≠ [] →
      lastSomeList ((idx.filter (fun d => decide (start ≤ d))).map fun d => lastSomeLE col d)
        = lastSomeList (idx.map fun d => lastSomeLE col d)
  | [], _, hne => absurd rfl hne
  | d :: rest, hpw, hne => by
    by_cases hd : start ≤ d
    · have hall : ∀ e ∈ d :: rest, decide (start ≤ e) = true := by
        intro e he
        rcases List.mem_cons.mp he with rfl | hmem
        · simpa using hd
        · simpa using Nat.le_of_lt (Nat.lt_of_le_of_lt hd (List.rel_of_pairwise_cons hpw hmem))
      rw [List.filter_eq_self.mpr hall]
    · have hfil : (d :: rest).filter (fun e => decide (start ≤ e))
          = rest.filter (fun e => decide (start ≤ e)) := by
        simp [List.filter_cons, hd]
      rw [hfil] at hne ⊢
      rw [lastSome_filter_ge col start rest hpw.of_cons hne]
      rw [List.map_cons, lastSomeList_cons]
      cases hX : lastSomeList (rest.map fun d => lastSomeLE col d) with
      | some v => rfl
      | none =>
        obtain ⟨x, hx⟩ := List.exists_mem_of_ne_nil _ hne
        have hxr : x ∈ rest := List.mem_of_mem_filter hx
        have hde : d < x := List.rel_of_pairwise_cons hpw hxr
        have hfe : lastSomeLE col x = none :=
          (lastSomeList_eq_none_iff _).mp hX _ (List.mem_map_of_mem _ hxr)
        have hfd : lastSomeLE col d = none :=
          lastSomeLE_none_of_le (Nat.le_of_lt hde) hfe
        rw [hfd]
        rfl

theorem rowCell_eq_getD {ns : List String} {c : String} {j : ℕ}
    (h : colPos c ns = some j) (cells : List Cell) :
    rowCell ns cells c = cells.getD j none := by
  simp [rowCell, h]

theorem colCells_add200MA_ne {t : Frame} (hWF : t.WF) (dfYf : Frame) {c : String}
    (hc : c ≠ "200MA") : colCells (add200MA t dfYf) c = colCells t c := by
  unfold add200MA
  split
  · exact colCells_addColDate_ne hWF _ hc
  · rfl

theorem colCells_addPremium_ne {t : Frame} (hWF : t.WF) {c : String}
    (h1 : c ≠ "Fair_CNY") (h2 : c ≠ "Dom_Spot") (h3 : c ≠ "Premium") :
    colCells (addPremium t) c = colCells t c := by
  unfold addPremium
  split
  · rw [colCells_addColBy_ne (addColBy_WF (addColBy_WF hWF _ _) _ _) _ h3,
      colCells_addColBy_ne (addColBy_WF hWF _ _) _ h2,
      colCells_addColBy_ne hWF _ h1]
  · exact colCells_addColBy_ne hWF _ h3

theorem truncateFrame_dates_ge {f : Frame} {start d : ℕ}
    (h : d ∈ (truncateFrame f start).dates) : start ≤ d := by
  obtain ⟨r, hr, rfl⟩ := List.mem_map.mp h
  have := List.of_mem_filter hr
  simpa using this

/-- The merged and filled column named `c` (sitting at position `j`), read
top to bottom. -/
theorem colCells_merged_eq (f g : Frame) {c : String} {j : ℕ}
    (hpos : colPos c (mergeDedupFfill f g).names = some j) :
    colCells (mergeDedupFfill f g) c =
      (unionIndex (f.dates ++ g.dates)).map (fun d => lastSomeLE (fun e =>
        if j < f.names.length then frameCellJ f j e
        else frameCellJ g (j - f.names.length) e) d) := by
  have hj : j < f.names.length + g.names.length := by
    have := colPos_lt_length hpos
    rwa [mergeDedupFfill_names, List.length_append] at this
  have h1 : colCells (mergeDedupFfill f g) c =
      (mergeDedupFfill f g).rows.map (fun r => r.2.getD j none) := by
    exact List.map_congr_left (fun r _ => rowCell_eq_getD hpos r.2)
  rw [h1]
  have h2 : (mergeDedupFfill f g).rows.map (fun r => r.2.getD j none) =
      ((mergeDedupFfill f g).rows.map (fun r => (r.1, r.2.getD j none))).map Prod.snd := by
    rw [List.map_map]
    rfl
  rw [h2, mergeDedupFfill_proj f g j hj, List.map_map]
  rfl

/-- The truncated merged column: the same values restricted to window dates. -/
theorem colCells_trunc_merged_eq (f g : Frame) (start : ℕ) {c : String} {j : ℕ}
    (hpos : colPos c (mergeDedupFfill f g).names = some j) :
    colCells (truncateFrame (mergeDedupFfill f g) start) c =
      (((unionIndex (f.dates ++ g.dates)).filter (fun d => decide (start ≤ d))).map
        (fun d => lastSomeLE (fun e =>
          if j < f.names.length then frameCellJ f j e
          else frameCellJ g (j - f.names.length) e) d)) := by
  have hj : j < f.names.length + g.names.length := by
    have := colPos_lt_length hpos
    rwa [mergeDedupFfill_names, List.length_append] at this
  have h1 : colCells (truncateFrame (mergeDedupFfill f g) start) c =
      ((mergeDedupFfill f g).rows.filter (fun r => decide (start ≤ r.1))).map
        (fun r => r.2.getD j none) := by
    exact List.map_congr_left (fun r _ => rowCell_eq_getD hpos r.2)
  rw [h1]
  have h2 : ((mergeDedupFfill f g).rows.filter (fun r => decide (start ≤ r.1))).map
        (fun r => (r.1, r.2.getD j none)) =
      ((mergeDedupFfill f g).rows.map (fun r => (r.1, r.2.getD j none))).filter
        (fun r => decide (start ≤ r.1)) := by
    rw [List.filter_map]
    rfl
  have h3 : ((mergeDedupFfill f g).rows.filter (fun r => decide (start ≤ r.1))).map
        (fun r => r.2.getD j none) =
      (((mergeDedupFfill f g).rows.filter (fun r => decide (start ≤ r.1))).map
        (fun r => (r.1, r.2.getD j none))).map Prod.snd := by
    rw [List.map_map]
    rfl
  rw [h3, h2, mergeDedupFfill_proj f g j hj]
  rw [show ((unionIndex (f.dates ++ g.dates)).map
      (fun d => (d, lastSomeLE (fun e =>
        if j < f.names.length then frameCellJ f j e
        else frameCellJ g (j - f.names.length) e) d))).filter
        (fun r => decide (start ≤ r.1)) =
      (((unionIndex (f.dates ++ g.dates)).filter (fun d => decide (start ≤ d))).map
        (fun d => (d, lastSomeLE (fun e =>
          if j < f.names.length then frameCellJ f j e
          else frameCellJ g (j - f.names.length) e) d))) from by rw [List.filter_map]; rfl]
  rw [List.map_map]
  rfl

theorem colPos_isSome_of_mem {c : String} {ns : List String} (hc : c ∈ ns) :
    ∃ j, colPos c ns = some j := by
  cases h : colPos c ns with
  | none => exact absurd hc (colPos_eq_none.mp h)
  | some j => exact ⟨j, rfl⟩

theorem colCells_s3_eq (f g dfYf : Frame) {c : String}
    (h1 : c ≠ "200MA") (h2 : c ≠ "Fair_CNY") (h3 : c ≠ "Dom_Spot") (h4 : c ≠ "Premium") :
    colCells (addPremium (add200MA (mergeDedupFfill f g) dfYf)) c
      = colCells (mergeDedupFfill f g) c := by
  rw [colCells_addPremium_ne (add200MA_WF (mergeDedupFfill_WF f g) dfYf) h2 h3 h4,
    colCells_add200MA_ne (mergeDedupFfill_WF f g) dfYf h1]

theorem colCells_trunc_s3_eq (f g dfYf : Frame) (start : ℕ) {c : String}
    (h1 : c ≠ "200MA") (h2 : c ≠ "Fair_CNY") (h3 : c ≠ "Dom_Spot") (h4 : c ≠ "Premium") :
    colCells (truncateFrame (addPremium (add200MA (mergeDedupFfill f g) dfYf)) start) c
      = colCells (truncateFrame (mergeDedupFfill f g) start) c := by
  rw [← addPremium_truncate, ← add200MA_truncate,
    colCells_addPremium_ne
      (add200MA_WF (truncateFrame_WF (mergeDedupFfill_WF f g) start) dfYf) h2 h3 h4,
    colCells_add200MA_ne (truncateFrame_WF (mergeDedupFfill_WF f g) start) dfYf h1]

/-- The FedWatch estimate computed on the display-truncated table equals the
one computed over the full merged history, provided the `FedFunds` column
comes from the macro side (whose frame only carries dates at or after the
display start, as `get_fred_data` returns it). -/
theorem fedwatch_prob_truncate (f g dfYf : Frame) (start : ℕ)
    (hFF : "FedFunds" ∉ f.names)
    (hg : ∀ d ∈ g.dates, start ≤ d) :
    fedwatch_prob (truncateFrame (addPremium (add200MA (mergeDedupFfill f g) dfYf)) start)
      = fedwatch_prob (addPremium (add200MA (mergeDedupFfill f g) dfYf)) := by
  by_cases hc : "FFF" ∈ (addPremium (add200MA (mergeDedupFfill f g) dfYf)).names ∧
      "FedFunds" ∈ (addPremium (add200MA (mergeDedupFfill f g) dfYf)).names
  case neg =>
    unfold fedwatch_prob
    simp only [truncateFrame_names]
    rw [if_neg hc, if_neg hc]
  case pos =>
    have hFFm : "FFF" ∈ (mergeDedupFfill f g).names := by
      have := hc.1
      rwa [addPremium_names_mem _ (by decide) (by decide) (by decide),
        add200MA_names_mem _ _ (by decide)] at this
    have hFundm : "FedFunds" ∈ (mergeDedupFfill f g).names := by
      have := hc.2
      rwa [addPremium_names_mem _ (by decide) (by decide) (by decide),
        add200MA_names_mem _ _ (by decide)] at this
    obtain ⟨j1, hj1⟩ := colPos_isSome_of_mem hFFm
    obtain ⟨j2, hj2⟩ := colPos_isSome_of_mem hFundm
    unfold fedwatch_prob
    simp only [truncateFrame_names]
    rw [if_pos hc, if_pos hc]
    rw [colCells_trunc_s3_eq f g dfYf start (by decide) (by decide) (by decide) (by decide),
      colCells_trunc_s3_eq f g dfYf start (by decide) (by decide) (by decide) (by decide),
      colCells_s3_eq f g dfYf (by decide) (by decide) (by decide) (by decide),
      colCells_s3_eq f g dfYf (by decide) (by decide) (by decide) (by decide)]
    rw [colCells_merged_eq f g hj1, colCells_merged_eq f g hj2,
      colCells_trunc_merged_eq f g start hj1, colCells_trunc_merged_eq f g start hj2]
    by_cases hemp :
        (unionIndex (f.dates ++ g.dates)).filter (fun d => decide (start ≤ d)) = []
    · -- the display window is empty: both sides fall back to 90
      rw [hemp]
      have hgrows : g.rows = [] := by
        cases hgr : g.rows with
        | nil => rfl
        | cons r rest =>
          have hd : r.1 ∈ g.dates := by
            simp [Frame.dates, hgr]
          have h1 : r.1 ∈ unionIndex (f.dates ++ g.dates) :=
            mem_unionIndex.mpr (List.mem_append.mpr (Or.inr hd))
          have h2 : r.1 ∈ (unionIndex (f.dates ++ g.dates)).filter
              (fun d => decide (start ≤ d)) :=
            List.mem_filter.mpr ⟨h1, by simpa using hg r.1 hd⟩
          rw [hemp] at h2
          simp at h2
      have hj2f : "FedFunds" ∉ f.names := hFF
      have hj2pos : ¬ j2 < f.names.length := by
        rw [mergeDedupFfill_names, colPos_append_of_not_mem _ hj2f] at hj2
        cases hg' : colPos "FedFunds" g.names with
        | none => rw [hg'] at hj2; simp at hj2
        | some j' =>
          rw [hg'] at hj2
          simp only [Option.map_some', Option.some.injEq] at hj2
          omega
      have hnone : lastSomeList ((unionIndex (f.dates ++ g.dates)).map
          (fun d => lastSomeLE (fun e =>
            if j2 < f.names.length then frameCellJ f j2 e
            else frameCellJ g (j2 - f.names.length) e) d)) = none := by
        rw [lastSomeList_eq_none_iff]
        intro v hv
        obtain ⟨d, _, rfl⟩ := List.mem_map.mp hv
        refine lastSomeLE_none (fun e => ?_) d
        rw [if_neg hj2pos]
        simp [frameCellJ, hgrows]
      rw [hnone]
      simp only [List.map_nil]
      rw [show lastSomeList ([] : List Cell) = none from rfl]
      cases lastSomeList ((unionIndex (f.dates ++ g.dates)).map
          (fun d => lastSomeLE (fun e =>
            if j1 < f.names.length then frameCellJ f j1 e
            else frameCellJ g (j1 - f.names.length) e) d)) <;> rfl
    · rw [lastSome_filter_ge _ start _ (pairwise_unionIndex _) hemp,
        lastSome_filter_ge _ start _ (pairwise_unionIndex _) hemp]

/-- The source pipeline (truncate at the display start, then derive) is
extensionally the same cycle as the spec-ordered pipeline (derive every
field over the full fetched history, then truncate), provided the
`FedFunds` policy-rate series comes from the macro provider rather than the
market-quote provider — as it does in the source's `FRED_TICKERS`. -/
theorem runPipeline_eq_specOrder (yfS fredS : List RawSeries) (start : ℕ)
    (hFF : "FedFunds" ∉ yfS.map (·.name)) :
    runPipeline yfS fredS start = specOrderPipeline yfS fredS start := by
  simp only [runPipeline, specOrderPipeline, mergedTable]
  have htr : addPremium (add200MA
        (truncateFrame (mergeDedupFfill (reindexFrame yfS) (fredProcess fredS start)) start)
        (reindexFrame yfS))
      = truncateFrame (addPremium (add200MA
          (mergeDedupFfill (reindexFrame yfS) (fredProcess fredS start))
          (reindexFrame yfS))) start := by
    rw [add200MA_truncate, addPremium_truncate]
  rw [htr, truncateFrame_names]
  have hfw : fedwatch_prob (truncateFrame (addPremium (add200MA
        (mergeDedupFfill (reindexFrame yfS) (fredProcess fredS start))
        (reindexFrame yfS))) start)
      = fedwatch_prob (addPremium (add200MA
          (mergeDedupFfill (reindexFrame yfS) (fredProcess fredS start))
          (reindexFrame yfS))) := by
    refine fedwatch_prob_truncate _ _ _ start hFF (fun d hd => ?_)
    exact truncateFrame_dates_ge hd
  rw [hfw]
  by_cases hgold : "Gold" ∈ (addPremium (add200MA
      (mergeDedupFfill (reindexFrame yfS) (fredProcess fredS start))
      (reindexFrame yfS))).names
  · rw [if_pos hgold, if_pos hgold]
    rw [← truncateFrame_dropGoldNa, addReal_truncate, addFedExp_truncate,
      addLiquidity_truncate]
  · rw [if_neg hgold, if_neg hgold]

theorem colCells_addReal_ne {t : Frame} (hWF : t.WF) {c : String}
    (hc : c ≠ "10Y_Real") : colCells (addReal t) c = colCells t c := by
  unfold addReal
  split <;> exact colCells_addColBy_ne hWF _ hc

theorem colCells_addFedExp_ne {t : Frame} (hWF : t.WF) {c : String}
    (hc : c ≠ "Fed_Expectations") : colCells (addFedExp t) c = colCells t c := by
  unfold addFedExp
  split <;> exact colCells_addColBy_ne hWF _ hc

theorem colCells_addLiquidity_ne {t : Frame} (hWF : t.WF) {c : String}
    (hc : c ≠ "Liquidity_Spread") : colCells (addLiquidity t) c = colCells t c := by
  unfold addLiquidity
  split <;> exact colCells_addColBy_ne hWF _ hc

theorem colCells_addColBy_self {t : Frame} (hWF : t.WF) {n : String} (hn : n ∉ t.names) (g) :
    colCells (addColBy t n g) n = t.rows.map (fun r => g t.names r.2) := by
  simp only [colCells, addColBy, List.map_map]
  refine List.map_congr_left fun r hr => ?_
  exact rowCell_append_self (hWF r hr) hn

/-- Shorthand for the table the cycle has built just before the anchor
check (`df_all` at `app.py` line 328). -/
def preAnchorTable (yfS fredS : List RawSeries) (start : ℕ) : Frame :=
  addPremium (add200MA (truncateFrame (mergedTable yfS fredS start) start)
    (reindexFrame yfS))

theorem preAnchorTable_WF (yfS fredS : List RawSeries) (start : ℕ) :
    (preAnchorTable yfS fredS start).WF :=
  addPremium_WF (add200MA_WF (truncateFrame_WF (mergeDedupFfill_WF _ _) start) _)

theorem runPipeline_eq_ite (yfS fredS : List RawSeries) (start : ℕ) :
    runPipeline yfS fredS start =
      if "Gold" ∈ (preAnchorTable yfS fredS start).names then
        .ok ⟨addLiquidity (addFedExp (addReal (dropGoldNa (preAnchorTable yfS fredS start)))),
          pivotPoints (reindexFrame yfS), fedwatch_prob (preAnchorTable yfS fredS start)⟩
      else .error "missing primary series: Gold" := rfl

theorem runPipeline_ok_table {yfS fredS : List RawSeries} {start : ℕ} {out : PipeOut}
    (hok : runPipeline yfS fredS start = .ok out) :
    "Gold" ∈ (preAnchorTable yfS fredS start).names ∧
    out = ⟨addLiquidity (addFedExp (addReal (dropGoldNa (preAnchorTable yfS fredS start)))),
      pivotPoints (reindexFrame yfS), fedwatch_prob (preAnchorTable yfS fredS start)⟩ := by
  rw [runPipeline_eq_ite] at hok
  by_cases hg : "Gold" ∈ (preAnchorTable yfS fredS start).names
  · rw [if_pos hg] at hok
    exact ⟨hg, (Except.ok.injEq _ _).mp hok |>.symm⟩
  · rw [if_neg hg] at hok
    exact absurd hok (by simp)

theorem ilocLast_none_or_mem (t : Frame) (c : String) :
    ilocLast t c = none ∨ ilocLast t c ∈ colCells t c := by
  unfold ilocLast
  cases hl : t.rows.getLast? with
  | none => exact Or.inl rfl
  | some r =>
    exact Or.inr (List.mem_map_of_mem _ (List.mem_of_getLast?_eq_some hl))

/-! ## Claims -/

/-- C1: for the latest available futures-like quote `q` and policy rate `r`
of the table, with `gap = r - (100 - q)`, the policy-easing probability is
piecewise: `gap ≤ 0` gives `95`, `gap ≥ 0.25` gives `10`, otherwise
`⌊95 - (gap/0.25)·85⌋`; `gap = 0.125` yields `52`, `gap = 0.30` yields `10`,
`gap = -0.1` yields `95`; and the result always lies in `[10, 95]`. -/
theorem c1_easing_probability (t : Frame) (q r : ℚ)
    (hff : "FFF" ∈ t.names) (hfund : "FedFunds" ∈ t.names)
    (hq : lastSomeList (colCells t "FFF") = some q)
    (hr : lastSomeList (colCells t "FedFunds") = some r) :
    fedwatch_prob t = probNoChange (r - (100 - q)) ∧
    (∀ gap : ℚ,
      (gap ≤ 0 → probNoChange gap = 95) ∧
      ((0.25 : ℚ) ≤ gap → probNoChange gap = 10) ∧
      (0 < gap → gap < 0.25 → probNoChange gap = ⌊95 - gap / 0.25 * 85⌋) ∧
      10 ≤ probNoChange gap ∧ probNoChange gap ≤ 95) ∧
    probNoChange (1/8) = 52 ∧ probNoChange (3/10) = 10 ∧ probNoChange (-(1/10)) = 95 := by
  have hval : ∀ gap : ℚ, gap / 0.25 * 85 = gap * 340 := by
    intro gap
    rw [show (0.25 : ℚ) = 1/4 from by norm_num]
    ring
  have hpw : ∀ gap : ℚ, 0 < gap → gap < 0.25 → probNoChange gap = ⌊95 - gap / 0.25 * 85⌋ := by
    intro gap h0 h25
    unfold probNoChange
    rw [if_neg (by linarith), if_neg (by linarith)]
    unfold pyInt
    rw [if_neg (by rw [hval]; nlinarith)]
  refine ⟨?_, ?_, ?_, ?_, ?_⟩
  · unfold fedwatch_prob
    rw [if_pos ⟨hff, hfund⟩, hq, hr]
  · intro gap
    refine ⟨?_, ?_, hpw gap, ?_, ?_⟩
    · intro h
      unfold probNoChange
      rw [if_pos h]
    · intro h
      unfold probNoChange
      rw [if_neg (by linarith), if_pos h]
    · by_cases h0 : gap ≤ 0
      · unfold probNoChange; rw [if_pos h0]; norm_num
      · by_cases h25 : (0.25:ℚ) ≤ gap
        · unfold probNoChange; rw [if_neg h0, if_pos h25]
        · rw [hpw gap (by linarith) (by linarith)]
          refine Int.le_floor.mpr ?_
          rw [hval]
          push_cast
          nlinarith [not_le.mp h25]
    · by_cases h0 : gap ≤ 0
      · unfold probNoChange; rw [if_pos h0]
      · by_cases h25 : (0.25:ℚ) ≤ gap
        · unfold probNoChange; rw [if_neg h0, if_pos h25]; norm_num
        · rw [hpw gap (by linarith) (by linarith)]
          have hle : (⌊95 - gap / 0.25 * 85⌋ : ℚ) ≤ 95 - gap / 0.25 * 85 := Int.floor_le _
          have hub : 95 - gap / 0.25 * 85 ≤ 95 := by
            rw [hval]; nlinarith [not_le.mp h0]
          exact_mod_cast hle.trans hub
  · norm_num [probNoChange, pyInt]
  · norm_num [probNoChange, pyInt]
  · norm_num [probNoChange, pyInt]

/-- Concrete table used to witness C1. -/
def c1frame : Frame := ⟨["FFF", "FedFunds"], [(0, [some 96, some 4])]⟩

/-- Witness for C1 at a concrete table whose latest quote is 96 and latest
policy rate is 4 (gap `= 0 ≤ 0`). -/
theorem c1_easing_probability_witness :
    fedwatch_prob c1frame = probNoChange ((4 : ℚ) - (100 - 96)) ∧
    probNoChange (1/8) = 52 :=
  ⟨(c1_easing_probability c1frame 96 4 (by decide) (by decide) rfl rfl).1,
   (c1_easing_probability c1frame 96 4 (by decide) (by decide) rfl rfl).2.2.1⟩

/-- C2: the primary regime is an ordered first-match rule list on the pair
(probability, spread): `p > 80 ∧ s > -0.15` gives Macro Headwind, otherwise
`p > 80 ∧ s < -0.30` gives Divergence Alert, otherwise `p < 50 ∧ s < -0.40`
gives Strong Tailwind, otherwise Neutral; with the four sample pairs of the
claim classified accordingly. -/
theorem c2_regime_rules (p : ℤ) (s : ℚ) :
    (80 < p → (-0.15 : ℚ) < s → classifyRegime p (some s) = .macroHeadwind) ∧
    (80 < p → s < -0.30 → classifyRegime p (some s) = .divergenceAlert) ∧
    (p < 50 → s < -0.40 → classifyRegime p (some s) = .strongTailwind) ∧
    (¬(80 < p ∧ (-0.15 : ℚ) < s) → ¬(80 < p ∧ s < -0.30) → ¬(p < 50 ∧ s < -0.40) →
      classifyRegime p (some s) = .neutral) ∧
    classifyRegime 85 (some (-0.10)) = .macroHeadwind ∧
    classifyRegime 85 (some (-0.35)) = .divergenceAlert ∧
    classifyRegime 40 (some (-0.45)) = .strongTailwind ∧
    classifyRegime 60 (some (-0.05)) = .neutral := by
  refine ⟨?_, ?_, ?_, ?_, ?_, ?_, ?_, ?_⟩
  · intro hp hs
    unfold classifyRegime
    rw [if_pos ⟨hp, by simpa [pyGt] using hs⟩]
  · intro hp hs
    unfold classifyRegime
    rw [if_neg (fun hc => by
        have := hc.2
        simp only [pyGt, decide_eq_true_eq] at this
        linarith),
      if_pos ⟨hp, by simpa [pyLt] using hs⟩]
  · intro hp hs
    unfold classifyRegime
    rw [if_neg (fun hc => absurd hc.1 (by omega)),
      if_neg (fun hc => absurd hc.1 (by omega)),
      if_pos ⟨hp, by simpa [pyLt] using hs⟩]
  · intro h1 h2 h3
    unfold classifyRegime
    simp only [pyGt, pyLt, decide_eq_true_eq]
    rw [if_neg h1, if_neg h2, if_neg h3]
  · norm_num [classifyRegime, pyGt, pyLt]
  · norm_num [classifyRegime, pyGt, pyLt]
  · norm_num [classifyRegime, pyGt, pyLt]
  · norm_num [classifyRegime, pyGt, pyLt]

/-- Witness for C2 at the claim's first sample pair. -/
theorem c2_regime_rules_witness :
    (80 : ℤ) < 85 ∧ (-0.15 : ℚ) < -0.10 ∧
    classifyRegime 85 (some (-0.10)) = .macroHeadwind :=
  ⟨by norm_num, by norm_num,
   (c2_regime_rules 85 (-0.10)).1 (by norm_num) (by norm_num)⟩

/-- C9: the pivot computation satisfies the classic floor-trader formulas,
the sample triple H=2050, L=2020, C=2035 yields (2035, 2050, 2020, 2065,
2005), and in the pipeline the high and low both degrade to the same
close-only value (`y_high = y_low = y_close = shift(1).iloc[-1]`). -/
theorem c9_pivot_levels (h l c : ℚ) (dfYf : Frame)
    (hrows : 2 < dfYf.rows.length) (hgold : "Gold" ∈ dfYf.names) :
    ((pivotCalc h l c).p = (h + l + c) / 3 ∧
      (pivotCalc h l c).r1 = 2 * ((h + l + c) / 3) - l ∧
      (pivotCalc h l c).s1 = 2 * ((h + l + c) / 3) - h ∧
      (pivotCalc h l c).r2 = (h + l + c) / 3 + (h - l) ∧
      (pivotCalc h l c).s2 = (h + l + c) / 3 - (h - l)) ∧
    pivotCalc 2050 2020 2035 = ⟨2035, 2050, 2020, 2065, 2005⟩ ∧
    pivotPoints dfYf = (match prevGoldClose dfYf with
      | some cl => (some (pivotCalc cl cl cl).p, some (pivotCalc cl cl cl).r1,
          some (pivotCalc cl cl cl).r2, some (pivotCalc cl cl cl).s1,
          some (pivotCalc cl cl cl).s2)
      | none => (none, none, none, none, none)) := by
  refine ⟨⟨rfl, rfl, rfl, rfl, rfl⟩, ?_, ?_⟩
  · show PivotLevels.mk _ _ _ _ _ = _
    norm_num [pivotCalc]
  · unfold pivotPoints
    rw [if_pos hrows, if_pos hgold]
    cases prevGoldClose dfYf <;> rfl

/-- Concrete baseline frame used to witness C9. -/
def c9frame : Frame :=
  ⟨["Gold"], [(0, [some 2000]), (1, [some 2010]), (2, [some 2020])]⟩

/-- Witness for C9 at a concrete three-row Gold frame. -/
theorem c9_pivot_levels_witness :
    2 < c9frame.rows.length ∧ "Gold" ∈ c9frame.names ∧
    pivotCalc 2050 2020 2035 = ⟨2035, 2050, 2020, 2065, 2005⟩ :=
  ⟨by decide, by decide,
   (c9_pivot_levels 1 1 1 c9frame (by decide) (by decide)).2.1⟩

/-- C5: if the anchor (Gold) series is entirely absent, the evaluation cycle
aborts with the distinct missing-primary-series failure (`st.error` +
`st.stop`, `app.py` lines 328–334) and produces no table at all. -/
theorem c5_missing_anchor (yfS fredS : List RawSeries) (start : ℕ)
    (hyf : "Gold" ∉ yfS.map (·.name)) (hfred : "Gold" ∉ fredS.map (·.name)) :
    runPipeline yfS fredS start = .error "missing primary series: Gold" := by
  have hng : "Gold" ∉ (preAnchorTable yfS fredS start).names := by
    unfold preAnchorTable
    rw [addPremium_names_mem _ (by decide) (by decide) (by decide),
      add200MA_names_mem _ _ (by decide), truncateFrame_names]
    show "Gold" ∉ yfS.map (·.name) ++ fredS.map (·.name)
    intro hmem
    rcases List.mem_append.mp hmem with h | h
    · exact hyf h
    · exact hfred h
  rw [runPipeline_eq_ite, if_neg hng]

/-- Concrete anchorless input used to witness C5. -/
def c5yf : List RawSeries := [⟨"DXY", [(0, 100)]⟩]

/-- Witness for C5: with only a DXY market series the cycle halts. -/
theorem c5_missing_anchor_witness :
    runPipeline c5yf [] 0 = .error "missing primary series: Gold" :=
  c5_missing_anchor c5yf [] 0 (by decide) (by decide)

/-- C6: every row of the final table has a non-missing anchor value — rows
whose Gold cell is still missing after forward-fill were dropped by
`dropna(subset=["Gold"])` and the later derived columns do not disturb the
Gold column. -/
theorem c6_anchor_rows {yfS fredS : List RawSeries} {start : ℕ} {out : PipeOut}
    (hok : runPipeline yfS fredS start = .ok out) :
    ∀ v ∈ colCells out.table "Gold", v.isSome := by
  obtain ⟨hg, hout⟩ := runPipeline_ok_table hok
  have hWF3 : (preAnchorTable yfS fredS start).WF := preAnchorTable_WF yfS fredS start
  have hWFd : (dropGoldNa (preAnchorTable yfS fredS start)).WF := dropGoldNa_WF hWF3
  rw [hout]
  show ∀ v ∈ colCells (addLiquidity (addFedExp (addReal
    (dropGoldNa (preAnchorTable yfS fredS start))))) "Gold", v.isSome
  rw [colCells_addLiquidity_ne (addFedExp_WF (addReal_WF hWFd)) (by decide),
    colCells_addFedExp_ne (addReal_WF hWFd) (by decide),
    colCells_addReal_ne hWFd (by decide)]
  intro v hv
  obtain ⟨r, hr, rfl⟩ := List.mem_map.mp hv
  have hr' : r ∈ (preAnchorTable yfS fredS start).rows.filter
      (fun q => (rowCell (preAnchorTable yfS fredS start).names q.2 "Gold").isSome) := hr
  have hfil := List.of_mem_filter hr'
  exact hfil

/-- Concrete input used to witness C6. -/
def c6yf : List RawSeries := [⟨"Gold", [(0, 2000), (1, 2010)]⟩]

/-- Witness for C6 at a concrete two-row Gold table. -/
theorem c6_anchor_rows_witness :
    (colCells (addLiquidity (addFedExp (addReal
      (dropGoldNa (preAnchorTable c6yf [] 0))))) "Gold").all
        (fun v => v.isSome) = true := by
  refine List.all_eq_true.mpr (fun v hv => ?_)
  refine @c6_anchor_rows c6yf [] 0 ⟨addLiquidity (addFedExp (addReal
    (dropGoldNa (preAnchorTable c6yf [] 0)))),
    pivotPoints (reindexFrame c6yf), fedwatch_prob (preAnchorTable c6yf [] 0)⟩
    ?_ v hv
  rw [runPipeline_eq_ite, if_pos (by decide)]

theorem rowCell_premium_read (ns : List String) (cs : List Cell) (vF vD : Cell)
    (hlen : cs.length = ns.length) (hfc : "Fair_CNY" ∉ ns) (hds : "Dom_Spot" ∉ ns) :
    rowCell ((ns ++ ["Fair_CNY"]) ++ ["Dom_Spot"]) ((cs ++ [vF]) ++ [vD]) "Dom_Spot" = vD ∧
    rowCell ((ns ++ ["Fair_CNY"]) ++ ["Dom_Spot"]) ((cs ++ [vF]) ++ [vD]) "Fair_CNY" = vF ∧
    rowCell (ns ++ ["Fair_CNY"]) (cs ++ [vF]) "Fair_CNY" = vF := by
  have hself : rowCell (ns ++ ["Fair_CNY"]) (cs ++ [vF]) "Fair_CNY" = vF :=
    rowCell_append_self hlen hfc
  refine ⟨?_, ?_, hself⟩
  · refine rowCell_append_self (by simp [hlen]) ?_
    intro h
    rcases List.mem_append.mp h with h | h
    · exact hds h
    · simp at h
  · rw [rowCell_append_other (by simp [hlen]) (by decide)]
    exact hself

/-- In the both-columns-present branch, every Premium cell is `8.5` or
missing. -/
theorem addPremium_cells_both {t : Frame} (hWF : t.WF)
    (hcond : "Gold" ∈ t.names ∧ "USDCNY" ∈ t.names)
    (hfc : "Fair_CNY" ∉ t.names) (hds : "Dom_Spot" ∉ t.names) (hpr : "Premium" ∉ t.names) :
    ∀ v ∈ colCells (addPremium t) "Premium", v = some (17/2) ∨ v = none := by
  unfold addPremium
  rw [if_pos hcond]
  intro v hv
  rw [colCells_addColBy_self (addColBy_WF (addColBy_WF hWF _ _) _ _) (by
    rw [addColBy_names, addColBy_names]
    intro h
    rcases List.mem_append.mp h with h | h
    · rcases List.mem_append.mp h with h' | h'
      · exact hpr h'
      · simp at h'
    · simp at h) _] at hv
  obtain ⟨r2, hr2, rfl⟩ := List.mem_map.mp hv
  obtain ⟨r1, hr1, rfl⟩ := List.mem_map.mp hr2
  obtain ⟨r0, hr0, rfl⟩ := List.mem_map.mp hr1
  have len0 : r0.2.length = t.names.length := hWF r0 hr0
  obtain ⟨hD, hF, hF1⟩ := rowCell_premium_read t.names r0.2
    (omap2 (fun gold fx => gold / 31.1035 * fx)
      (rowCell t.names r0.2 "Gold") (rowCell t.names r0.2 "USDCNY"))
    (omap (fun fair => fair + 8.5)
      (rowCell (t.names ++ ["Fair_CNY"])
        (r0.2 ++ [omap2 (fun gold fx => gold / 31.1035 * fx)
          (rowCell t.names r0.2 "Gold") (rowCell t.names r0.2 "USDCNY")]) "Fair_CNY"))
    len0 hfc hds
  simp only [addColBy_names]
  rw [hD, hF, hF1]
  cases hX : omap2 (fun gold fx => gold / 31.1035 * fx)
      (rowCell t.names r0.2 "Gold") (rowCell t.names r0.2 "USDCNY") with
  | none => exact Or.inr rfl
  | some x =>
    left
    show some (x + 8.5 - x) = some (17/2)
    norm_num

/-- In the missing-column branch, every Premium cell is the broadcast `0`. -/
theorem addPremium_cells_missing {t : Frame} (hWF : t.WF)
    (hcond : ¬("Gold" ∈ t.names ∧ "USDCNY" ∈ t.names)) (hpr : "Premium" ∉ t.names) :
    ∀ v ∈ colCells (addPremium t) "Premium", v = some 0 := by
  unfold addPremium
  rw [if_neg hcond]
  intro v hv
  rw [colCells_addColBy_self hWF hpr _] at hv
  obtain ⟨r, hr, rfl⟩ := List.mem_map.mp hv
  rfl

theorem colCells_dropGold_subset (t : Frame) (c : String) :
    ∀ v ∈ colCells (dropGoldNa t) c, v ∈ colCells t c := by
  intro v hv
  obtain ⟨r, hr, rfl⟩ := List.mem_map.mp hv
  exact List.mem_map_of_mem _ (List.mem_of_mem_filter hr)

/-- C10 (amended): whenever both `Gold` and `USDCNY` columns exist, every
premium cell that has a value equals the constant `8.5`; rows where either
underlying value is still missing carry a missing premium (not `8.5`); when
either column is absent the premium column is the broadcast `0`; and in all
cases the arbitrage alert `premium > 15` never fires. -/
theorem c10_premium_amended (yfS fredS : List RawSeries) (start : ℕ) (out : PipeOut)
    (hok : runPipeline yfS fredS start = .ok out)
    (hfc : "Fair_CNY" ∉ yfS.map (·.name) ++ fredS.map (·.name))
    (hds : "Dom_Spot" ∉ yfS.map (·.name) ++ fredS.map (·.name))
    (hpr : "Premium" ∉ yfS.map (·.name) ++ fredS.map (·.name)) :
    (("Gold" ∈ yfS.map (·.name) ++ fredS.map (·.name) ∧
      "USDCNY" ∈ yfS.map (·.name) ++ fredS.map (·.name)) →
      ∀ v ∈ colCells out.table "Premium", v = some (17/2) ∨ v = none) ∧
    (¬("Gold" ∈ yfS.map (·.name) ++ fredS.map (·.name) ∧
      "USDCNY" ∈ yfS.map (·.name) ++ fredS.map (·.name)) →
      ∀ v ∈ colCells out.table "Premium", v = some 0) ∧
    premiumAlert out.table = false := by
  obtain ⟨hg, hout⟩ := runPipeline_ok_table hok
  have hWF2 : (add200MA (truncateFrame (mergedTable yfS fredS start) start)
      (reindexFrame yfS)).WF :=
    add200MA_WF (truncateFrame_WF (mergeDedupFfill_WF _ _) start) _
  have hWF3 : (preAnchorTable yfS fredS start).WF := preAnchorTable_WF yfS fredS start
  have hn2 : ∀ c : String, c ≠ "200MA" →
      ((c ∈ (add200MA (truncateFrame (mergedTable yfS fredS start) start)
        (reindexFrame yfS)).names) ↔ c ∈ yfS.map (·.name) ++ fredS.map (·.name)) := by
    intro c hc
    rw [add200MA_names_mem _ _ hc, truncateFrame_names]
    exact Iff.rfl
  have hcc : colCells out.table "Premium" =
      colCells (dropGoldNa (preAnchorTable yfS fredS start)) "Premium" := by
    rw [hout]
    show colCells (addLiquidity (addFedExp (addReal
      (dropGoldNa (preAnchorTable yfS fredS start))))) "Premium" = _
    rw [colCells_addLiquidity_ne (addFedExp_WF (addReal_WF (dropGoldNa_WF hWF3))) (by decide),
      colCells_addFedExp_ne (addReal_WF (dropGoldNa_WF hWF3)) (by decide),
      colCells_addReal_ne (dropGoldNa_WF hWF3) (by decide)]
  have hsub : ∀ v ∈ colCells out.table "Premium",
      v ∈ colCells (addPremium (add200MA (truncateFrame (mergedTable yfS fredS start) start)
        (reindexFrame yfS))) "Premium" := by
    intro v hv
    rw [hcc] at hv
    exact colCells_dropGold_subset _ _ v hv
  have hfcT : "Fair_CNY" ∉ (add200MA (truncateFrame (mergedTable yfS fredS start) start)
      (reindexFrame yfS)).names := fun h => hfc ((hn2 _ (by decide)).mp h)
  have hdsT : "Dom_Spot" ∉ (add200MA (truncateFrame (mergedTable yfS fredS start) start)
      (reindexFrame yfS)).names := fun h => hds ((hn2 _ (by decide)).mp h)
  have hprT : "Premium" ∉ (add200MA (truncateFrame (mergedTable yfS fredS start) start)
      (reindexFrame yfS)).names := fun h => hpr ((hn2 _ (by decide)).mp h)
  have hboth : ("Gold" ∈ yfS.map (·.name) ++ fredS.map (·.name) ∧
      "USDCNY" ∈ yfS.map (·.name) ++ fredS.map (·.name)) →
      ∀ v ∈ colCells out.table "Premium", v = some (17/2) ∨ v = none := by
    intro hc v hv
    exact addPremium_cells_both hWF2
      ⟨(hn2 _ (by decide)).mpr hc.1, (hn2 _ (by decide)).mpr hc.2⟩
      hfcT hdsT hprT v (hsub v hv)
  have hmiss : ¬("Gold" ∈ yfS.map (·.name) ++ fredS.map (·.name) ∧
      "USDCNY" ∈ yfS.map (·.name) ++ fredS.map (·.name)) →
      ∀ v ∈ colCells out.table "Premium", v = some 0 := by
    intro hc v hv
    refine addPremium_cells_missing hWF2 (fun hc2 => hc ?_) hprT v (hsub v hv)
    exact ⟨(hn2 _ (by decide)).mp hc2.1, (hn2 _ (by decide)).mp hc2.2⟩
  refine ⟨hboth, hmiss, ?_⟩
  rcases ilocLast_none_or_mem out.table "Premium" with h | h
  · rw [premiumAlert, h]
    rfl
  · rw [premiumAlert]
    by_cases hc : ("Gold" ∈ yfS.map (·.name) ++ fredS.map (·.name) ∧
        "USDCNY" ∈ yfS.map (·.name) ++ fredS.map (·.name))
    · rcases hboth hc _ h with h85 | hnone
      · rw [h85]
        norm_num [pyGt]
      · rw [hnone]
        rfl
    · rw [hmiss hc _ h]
      norm_num [pyGt]
/-- Input for the C10 counterexample: Gold quoted on day 0 only, USDCNY on
day 1 only, so the day-0 row has both columns but no USDCNY value yet. -/
def c10yf : List RawSeries := [⟨"Gold", [(0, 2000)]⟩, ⟨"USDCNY", [(1, 7)]⟩]

/-- C10 (counterexample): with both the `Gold` and `USDCNY` columns present
the premium column is `[missing, 8.5]`, not the constant `8.5` at every row —
the day-0 row carries a missing premium because its USDCNY value is still
missing after forward-fill. -/
theorem c10_premium_counterexample :
    (runPipeline c10yf [] 0).map (fun out =>
      (decide ("Gold" ∈ out.table.names), decide ("USDCNY" ∈ out.table.names),
        colCells out.table "Premium"))
      = .ok (true, true, [none, some (17/2)]) ∧ (none : Cell) ≠ some (17/2) := by
  refine ⟨by with_unfolding_all rfl, by simp⟩

/-- Both-columns input used to witness C10's amended theorem: the Gold quote
is one troy ounce in grams over two, so the fair value is exactly `2`. -/
def c10wyf : List RawSeries :=
  [⟨"Gold", [(0, 62207/2000)]⟩, ⟨"USDCNY", [(0, 2)]⟩]

/-- The cycle output on `c10wyf` (witness for C10's amended theorem). -/
def c10wout : PipeOut :=
  ⟨⟨["Gold", "USDCNY", "200MA", "Fair_CNY", "Dom_Spot", "Premium",
      "10Y_Real", "Fed_Expectations", "Liquidity_Spread"],
    [(0, [some (62207/2000), some 2, none, some 2, some (21/2), some (17/2),
      some 0, some 0, some 0])]⟩,
   (some 0, some 0, some 0, some 0, some 0), 90⟩

theorem c10_premium_amended_witness :
    runPipeline c10wyf [] 0 = .ok c10wout ∧
    "Fair_CNY" ∉ c10wyf.map (·.name) ++ ([] : List RawSeries).map (·.name) ∧
    "Dom_Spot" ∉ c10wyf.map (·.name) ++ ([] : List RawSeries).map (·.name) ∧
    "Premium" ∉ c10wyf.map (·.name) ++ ([] : List RawSeries).map (·.name) ∧
    ((("Gold" ∈ c10wyf.map (·.name) ++ ([] : List RawSeries).map (·.name) ∧
        "USDCNY" ∈ c10wyf.map (·.name) ++ ([] : List RawSeries).map (·.name)) →
        ∀ v ∈ colCells c10wout.table "Premium", v = some (17/2) ∨ v = none) ∧
      (¬("Gold" ∈ c10wyf.map (·.name) ++ ([] : List RawSeries).map (·.name) ∧
        "USDCNY" ∈ c10wyf.map (·.name) ++ ([] : List RawSeries).map (·.name)) →
        ∀ v ∈ colCells c10wout.table "Premium", v = some 0) ∧
      premiumAlert c10wout.table = false) := by
  have hok : runPipeline c10wyf [] 0 = .ok c10wout := by with_unfolding_all rfl
  exact ⟨hok, by decide, by decide, by decide,
    c10_premium_amended c10wyf [] 0 c10wout hok (by decide) (by decide) (by decide)⟩

/-- Input for claim C7: Gold quoted on days 0 and 1 (no quote on day 2), the
nominal 10-year yield on days 0 and 2. -/
def c7yf : List RawSeries :=
  [⟨"Gold", [(0, 2000), (1, 2010)]⟩, ⟨"10Y_Nominal_YF", [(0, 4.5), (2, 4.6)]⟩]

/-- FRED input for claim C7: the breakeven observed on day 1 only. -/
def c7fred : List RawSeries := [⟨"10Y_Breakeven_FRED", [(1, 2.3)]⟩]

/-- C7: for the raw series Gold `{0: 2000, 1: 2010}`, nominal yield
`{0: 4.5, 2: 4.6}` and breakeven `{1: 2.3}`, the cycle forward-fills before
the anchor drop: day 2 is retained, its Gold value is forward-filled to
`2010`, and its real yield equals `4.6 - 2.3 = 2.3` with the breakeven
forward-filled from day 1. -/
theorem c7_fill_before_drop :
    (runPipeline c7yf c7fred 0).map (fun out =>
      (decide (2 ∈ out.table.dates), cellAtDate out.table "Gold" 2,
        cellAtDate out.table "10Y_Real" 2))
      = .ok (true, some 2010, some (23/10)) := by
  with_unfolding_all rfl

/-- Gold-only input for claim C3: every other input column (yields, SOFR,
fed funds, futures, USDCNY) is absent. -/
def c3yf : List RawSeries := [⟨"Gold", [(0, 2000)]⟩]

/-- C3 (counterexample): with the FedWatch inputs (`FFF`, `FedFunds`) absent
the policy-easing probability is the initial `90`, not the claimed constant
sentinel `0`. -/
theorem c3_sentinel_counterexample :
    (runPipeline c3yf [] 0).map (·.fedwatchPr) = .ok 90 ∧ (90 : ℤ) ≠ 0 :=
  ⟨by rfl, by decide⟩

theorem addReal_names (t : Frame) : (addReal t).names = t.names ++ ["10Y_Real"] := by
  unfold addReal
  split <;> rfl

theorem addFedExp_names (t : Frame) :
    (addFedExp t).names = t.names ++ ["Fed_Expectations"] := by
  unfold addFedExp
  split <;> rfl

theorem mem_append_single {c n : String} (hne : c ≠ n) {ns : List String} :
    c ∈ ns ++ [n] ↔ c ∈ ns := by
  simp [List.mem_append, hne]

/-- C3 (amended): when a derived column's required inputs are absent the
cycle still never fails and never leaves the field missing: the real-yield,
rate-expectation, liquidity and premium columns are the broadcast constant
`0` and the pivot levels are zeros, exactly as claimed — but the
policy-easing probability stays at its initial `90`, not the sentinel `0`. -/
theorem c3_sentinel_amended (yfS fredS : List RawSeries) (start : ℕ) (out : PipeOut)
    (hok : runPipeline yfS fredS start = .ok out)
    (hr : "10Y_Real" ∉ yfS.map (·.name) ++ fredS.map (·.name))
    (hf : "Fed_Expectations" ∉ yfS.map (·.name) ++ fredS.map (·.name))
    (hl : "Liquidity_Spread" ∉ yfS.map (·.name) ++ fredS.map (·.name))
    (hpr : "Premium" ∉ yfS.map (·.name) ++ fredS.map (·.name)) :
    (¬("10Y_Nominal_YF" ∈ yfS.map (·.name) ++ fredS.map (·.name) ∧
        "10Y_Breakeven_FRED" ∈ yfS.map (·.name) ++ fredS.map (·.name)) →
      ∀ v ∈ colCells out.table "10Y_Real", v = some 0) ∧
    (¬("2Y_Nominal" ∈ yfS.map (·.name) ++ fredS.map (·.name) ∧
        "FedFunds" ∈ yfS.map (·.name) ++ fredS.map (·.name)) →
      ∀ v ∈ colCells out.table "Fed_Expectations", v = some 0) ∧
    (¬("SOFR" ∈ yfS.map (·.name) ++ fredS.map (·.name) ∧
        "FedFunds" ∈ yfS.map (·.name) ++ fredS.map (·.name)) →
      ∀ v ∈ colCells out.table "Liquidity_Spread", v = some 0) ∧
    (¬("Gold" ∈ yfS.map (·.name) ++ fredS.map (·.name) ∧
        "USDCNY" ∈ yfS.map (·.name) ++ fredS.map (·.name)) →
      ∀ v ∈ colCells out.table "Premium", v = some 0) ∧
    ("Gold" ∉ yfS.map (·.name) ∨ (reindexFrame yfS).rows.length ≤ 2 →
      out.pivots = (some 0, some 0, some 0, some 0, some 0)) ∧
    (¬("FFF" ∈ yfS.map (·.name) ++ fredS.map (·.name) ∧
        "FedFunds" ∈ yfS.map (·.name) ++ fredS.map (·.name)) →
      out.fedwatchPr = 90) := by
  obtain ⟨hg, hout⟩ := runPipeline_ok_table hok
  have hWF2 : (add200MA (truncateFrame (mergedTable yfS fredS start) start)
      (reindexFrame yfS)).WF :=
    add200MA_WF (truncateFrame_WF (mergeDedupFfill_WF _ _) start) _
  have hWF3 : (preAnchorTable yfS fredS start).WF := preAnchorTable_WF yfS fredS start
  have hn2 : ∀ c : String, c ≠ "200MA" →
      ((c ∈ (add200MA (truncateFrame (mergedTable yfS fredS start) start)
        (reindexFrame yfS)).names) ↔ c ∈ yfS.map (·.name) ++ fredS.map (·.name)) := by
    intro c hc
    rw [add200MA_names_mem _ _ hc, truncateFrame_names]
    exact Iff.rfl
  have hnP : ∀ c : String, c ≠ "200MA" → c ≠ "Fair_CNY" → c ≠ "Dom_Spot" →
      c ≠ "Premium" →
      ((c ∈ (preAnchorTable yfS fredS start).names) ↔
        c ∈ yfS.map (·.name) ++ fredS.map (·.name)) := by
    intro c h0 h1 h2 h3
    exact Iff.trans (addPremium_names_mem _ h1 h2 h3) (hn2 c h0)
  have hAR : ∀ c : String, c ≠ "10Y_Real" → c ≠ "200MA" → c ≠ "Fair_CNY" →
      c ≠ "Dom_Spot" → c ≠ "Premium" →
      ((c ∈ (addReal (dropGoldNa (preAnchorTable yfS fredS start))).names) ↔
        c ∈ yfS.map (·.name) ++ fredS.map (·.name)) := by
    intro c h0 h1 h2 h3 h4
    rw [addReal_names]
    exact Iff.trans (mem_append_single h0) (hnP c h1 h2 h3 h4)
  have hAF : ∀ c : String, c ≠ "Fed_Expectations" → c ≠ "10Y_Real" → c ≠ "200MA" →
      c ≠ "Fair_CNY" → c ≠ "Dom_Spot" → c ≠ "Premium" →
      ((c ∈ (addFedExp (addReal (dropGoldNa
          (preAnchorTable yfS fredS start)))).names) ↔
        c ∈ yfS.map (·.name) ++ fredS.map (·.name)) := by
    intro c h0 h1 h2 h3 h4 h5
    rw [addFedExp_names]
    exact Iff.trans (mem_append_single h0) (hAR c h1 h2 h3 h4 h5)
  have hccR : colCells out.table "10Y_Real" =
      colCells (addReal (dropGoldNa (preAnchorTable yfS fredS start))) "10Y_Real" := by
    rw [hout]
    show colCells (addLiquidity (addFedExp (addReal
      (dropGoldNa (preAnchorTable yfS fredS start))))) "10Y_Real" = _
    rw [colCells_addLiquidity_ne (addFedExp_WF (addReal_WF (dropGoldNa_WF hWF3)))
        (by decide),
      colCells_addFedExp_ne (addReal_WF (dropGoldNa_WF hWF3)) (by decide)]
  have hccF : colCells out.table "Fed_Expectations" =
      colCells (addFedExp (addReal (dropGoldNa
        (preAnchorTable yfS fredS start)))) "Fed_Expectations" := by
    rw [hout]
    show colCells (addLiquidity (addFedExp (addReal
      (dropGoldNa (preAnchorTable yfS fredS start))))) "Fed_Expectations" = _
    rw [colCells_addLiquidity_ne (addFedExp_WF (addReal_WF (dropGoldNa_WF hWF3)))
      (by decide)]
  have hccL : colCells out.table "Liquidity_Spread" =
      colCells (addLiquidity (addFedExp (addReal (dropGoldNa
        (preAnchorTable yfS fredS start))))) "Liquidity_Spread" := by
    rw [hout]
  have hccP : colCells out.table "Premium" =
      colCells (dropGoldNa (preAnchorTable yfS fredS start)) "Premium" := by
    rw [hout]
    show colCells (addLiquidity (addFedExp (addReal
      (dropGoldNa (preAnchorTable yfS fredS start))))) "Premium" = _
    rw [colCells_addLiquidity_ne (addFedExp_WF (addReal_WF (dropGoldNa_WF hWF3)))
        (by decide),
      colCells_addFedExp_ne (addReal_WF (dropGoldNa_WF hWF3)) (by decide),
      colCells_addReal_ne (dropGoldNa_WF hWF3) (by decide)]
  refine ⟨?_, ?_, ?_, ?_, ?_, ?_⟩
  · intro hcond v hv
    rw [hccR, addReal, if_neg (fun hc => hcond
        ⟨(hnP _ (by decide) (by decide) (by decide) (by decide)).mp hc.1,
         (hnP _ (by decide) (by decide) (by decide) (by decide)).mp hc.2⟩),
      colCells_addColBy_self (dropGoldNa_WF hWF3)
        (fun h => hr ((hnP _ (by decide) (by decide) (by decide) (by decide)).mp h))] at hv
    obtain ⟨r, hrm, hveq⟩ := List.mem_map.mp hv
    exact hveq.symm
  · intro hcond v hv
    rw [hccF, addFedExp, if_neg (fun hc => hcond
        ⟨(hAR _ (by decide) (by decide) (by decide) (by decide) (by decide)).mp hc.1,
         (hAR _ (by decide) (by decide) (by decide) (by decide) (by decide)).mp hc.2⟩),
      colCells_addColBy_self (addReal_WF (dropGoldNa_WF hWF3))
        (fun h => hf ((hAR _ (by decide) (by decide) (by decide) (by decide)
          (by decide)).mp h))] at hv
    obtain ⟨r, hrm, hveq⟩ := List.mem_map.mp hv
    exact hveq.symm
  · intro hcond v hv
    rw [hccL, addLiquidity, if_neg (fun hc => hcond
        ⟨(hAF _ (by decide) (by decide) (by decide) (by decide) (by decide)
            (by decide)).mp hc.1,
         (hAF _ (by decide) (by decide) (by decide) (by decide) (by decide)
            (by decide)).mp hc.2⟩),
      colCells_addColBy_self (addFedExp_WF (addReal_WF (dropGoldNa_WF hWF3)))
        (fun h => hl ((hAF _ (by decide) (by decide) (by decide) (by decide)
          (by decide) (by decide)).mp h))] at hv
    obtain ⟨r, hrm, hveq⟩ := List.mem_map.mp hv
    exact hveq.symm
  · intro hcond v hv
    rw [hccP] at hv
    have hv2 := colCells_dropGold_subset _ _ v hv
    refine addPremium_cells_missing hWF2 (fun hc2 => hcond ?_)
      (fun h => hpr ((hn2 _ (by decide)).mp h)) v hv2
    exact ⟨(hn2 _ (by decide)).mp hc2.1, (hn2 _ (by decide)).mp hc2.2⟩
  · intro hyp
    have hpv : out.pivots = pivotPoints (reindexFrame yfS) := by rw [hout]
    rw [hpv, pivotPoints]
    by_cases hlen : 2 < (reindexFrame yfS).rows.length
    · rcases hyp with hg2 | hle
      · rw [if_pos hlen, if_neg (by rwa [reindexFrame_names])]
      · exact absurd hlen (by omega)
    · rw [if_neg hlen]
  · intro hcond
    have hfw : out.fedwatchPr = fedwatch_prob (preAnchorTable yfS fredS start) := by
      rw [hout]
    rw [hfw, fedwatch_prob, if_neg (fun hc => hcond
      ⟨(hnP _ (by decide) (by decide) (by decide) (by decide)).mp hc.1,
       (hnP _ (by decide) (by decide) (by decide) (by decide)).mp hc.2⟩)]

/-- The cycle output on `c3yf` (witness for C3's amended theorem). -/
def c3out : PipeOut :=
  ⟨⟨["Gold", "200MA", "Premium", "10Y_Real", "Fed_Expectations", "Liquidity_Spread"],
    [(0, [some 2000, none, some 0, some 0, some 0, some 0])]⟩,
   (some 0, some 0, some 0, some 0, some 0), 90⟩

theorem c3_sentinel_amended_witness :
    runPipeline c3yf [] 0 = .ok c3out ∧
    "10Y_Real" ∉ c3yf.map (·.name) ++ ([] : List RawSeries).map (·.name) ∧
    "Fed_Expectations" ∉ c3yf.map (·.name) ++ ([] : List RawSeries).map (·.name) ∧
    "Liquidity_Spread" ∉ c3yf.map (·.name) ++ ([] : List RawSeries).map (·.name) ∧
    "Premium" ∉ c3yf.map (·.name) ++ ([] : List RawSeries).map (·.name) ∧
    ((¬("10Y_Nominal_YF" ∈ c3yf.map (·.name) ++ ([] : List RawSeries).map (·.name) ∧
        "10Y_Breakeven_FRED" ∈ c3yf.map (·.name) ++ ([] : List RawSeries).map (·.name)) →
        ∀ v ∈ colCells c3out.table "10Y_Real", v = some 0) ∧
      (¬("2Y_Nominal" ∈ c3yf.map (·.name) ++ ([] : List RawSeries).map (·.name) ∧
        "FedFunds" ∈ c3yf.map (·.name) ++ ([] : List RawSeries).map (·.name)) →
        ∀ v ∈ colCells c3out.table "Fed_Expectations", v = some 0) ∧
      (¬("SOFR" ∈ c3yf.map (·.name) ++ ([] : List RawSeries).map (·.name) ∧
        "FedFunds" ∈ c3yf.map (·.name) ++ ([] : List RawSeries).map (·.name)) →
        ∀ v ∈ colCells c3out.table "Liquidity_Spread", v = some 0) ∧
      (¬("Gold" ∈ c3yf.map (·.name) ++ ([] : List RawSeries).map (·.name) ∧
        "USDCNY" ∈ c3yf.map (·.name) ++ ([] : List RawSeries).map (·.name)) →
        ∀ v ∈ colCells c3out.table "Premium", v = some 0) ∧
      ("Gold" ∉ c3yf.map (·.name) ∨ (reindexFrame c3yf).rows.length ≤ 2 →
        c3out.pivots = (some 0, some 0, some 0, some 0, some 0)) ∧
      (¬("FFF" ∈ c3yf.map (·.name) ++ ([] : List RawSeries).map (·.name) ∧
        "FedFunds" ∈ c3yf.map (·.name) ++ ([] : List RawSeries).map (·.name)) →
        c3out.fedwatchPr = 90)) := by
  have hok : runPipeline c3yf [] 0 = .ok c3out := by with_unfolding_all rfl
  exact ⟨hok, by decide, by decide, by decide, by decide,
    c3_sentinel_amended c3yf [] 0 c3out hok (by decide) (by decide) (by decide)
      (by decide)⟩

/-- Baseline input for claim C4: Gold quoted on days 5 and 12. -/
def c4yf : List RawSeries := [⟨"Gold", [(5, 2000), (12, 2010)]⟩]

/-- FRED input for claim C4: series `X` observed on day 0 only, so the
`get_fred_data` truncation at the display start (day 10) discards it. -/
def c4fred : List RawSeries := [⟨"X", [(0, 1)]⟩]

/-- C4 (counterexample): day 12 is a merged-table date at or after column
`X`'s first observed date 0, and the most recent observed value at or before
day 12 is `1` — yet the aligned value at day 12 is missing, because
`get_fred_data` forward-fills and then truncates at the display start,
discarding every buffer observation before day 10. -/
theorem c4_forward_fill_counterexample :
    (12 ∈ (mergedTable c4yf c4fred 10).dates) ∧
    lastSomeLE (lookupLast [((0 : ℕ), (1 : ℚ))]) 12 = some 1 ∧
    cellAtDate (mergedTable c4yf c4fred 10) "X" 12 = none := by
  refine ⟨by decide, by decide, by decide⟩

/-- C4 (amended): at every merged-table date, a market (yfinance) column is
forward-filled from its raw observations — the most recent value at or
before the date, missing before the first observation; a macro (FRED)
column is forward-filled from the `get_fred_data` output frame instead,
whose forward-fill-then-truncate step has already discarded all buffer
observations that did not survive to a date at or after the display start. -/
theorem c4_forward_fill_amended (yfS fredS : List RawSeries) (start : ℕ)
    (hnod : (yfS.map (·.name)).Nodup) (d : ℕ)
    (hd : d ∈ (mergedTable yfS fredS start).dates) :
    (∀ s ∈ yfS, cellAtDate (mergedTable yfS fredS start) s.name d
        = lastSomeLE (lookupLast s.points) d) ∧
    (∀ c : String, c ∉ yfS.map (·.name) →
      cellAtDate (mergedTable yfS fredS start) c d
        = lastSomeLE (cellAtDate (fredProcess fredS start) c) d) := by
  rw [mergedTable_dates] at hd
  constructor
  · intro s hs
    have hc : s.name ∈ (reindexFrame yfS).names := by
      rw [reindexFrame_names]
      exact List.mem_map_of_mem _ hs
    refine Eq.trans
      (mergeDedupFfill_cell_left (reindexFrame yfS) (fredProcess fredS start) hc hd) ?_
    exact lastSomeLE_congr (fun e => cellAtDate_reindexFrame yfS hnod hs e) d
  · intro c hc
    have hcf : c ∉ (reindexFrame yfS).names := by
      rw [reindexFrame_names]
      exact hc
    exact mergeDedupFfill_cell_right (reindexFrame yfS) (fredProcess fredS start) hcf hd

theorem c4_forward_fill_amended_witness :
    (c4yf.map (·.name)).Nodup ∧ 12 ∈ (mergedTable c4yf c4fred 10).dates ∧
    ((∀ s ∈ c4yf, cellAtDate (mergedTable c4yf c4fred 10) s.name 12
        = lastSomeLE (lookupLast s.points) 12) ∧
      (∀ c : String, c ∉ c4yf.map (·.name) →
        cellAtDate (mergedTable c4yf c4fred 10) c 12
          = lastSomeLE (cellAtDate (fredProcess c4fred 10) c) 12)) :=
  ⟨by decide, by decide, c4_forward_fill_amended c4yf c4fred 10 (by decide) 12 (by decide)⟩

/-- Concrete market download used to witness C8. -/
def c8download : String → List RawSeries := fun _ => [⟨"Gold", [(0, 2000)]⟩]

/-- Concrete macro fetch used to witness C8. -/
def c8fetch : ℕ → List RawSeries := fun _ => []

/-- C8: for every lookback label, the market-quote fetch uses the fixed
2-year baseline regardless of the requested period; the macro fetch start is
the display start minus the 150-day buffer, applied at the fetch step; the
display start is now minus the requested lookback; and the cycle's result
coincides extensionally with computing every derived field over the full
(wider) history and truncating at the display start last. -/
theorem c8_window_semantics (now : ℕ) (tr : TimeRange)
    (download : String → List RawSeries) (fetch : ℕ → List RawSeries)
    (hFF : "FedFunds" ∉ (download "2y").map (·.name)) :
    get_yfinance_data download (period_map tr) = download "2y" ∧
    get_fred_data fetch (displayStart now tr) = fetch (displayStart now tr - 150) ∧
    displayStart now tr = now - lookbackDays tr ∧
    runApp now tr download fetch =
      runPipeline (download "2y") (fetch (displayStart now tr - 150))
        (displayStart now tr) ∧
    runApp now tr download fetch =
      specOrderPipeline (download "2y") (fetch (displayStart now tr - 150))
        (displayStart now tr) := by
  refine ⟨rfl, rfl, rfl, rfl, ?_⟩
  exact runPipeline_eq_specOrder (download "2y")
    (fetch (displayStart now tr - 150)) (displayStart now tr) hFF

theorem c8_window_semantics_witness :
    ("FedFunds" ∉ (c8download "2y").map (·.name)) ∧
    (get_yfinance_data c8download (period_map .m1) = c8download "2y" ∧
      get_fred_data c8fetch (displayStart 1000 .m1) =
        c8fetch (displayStart 1000 .m1 - 150) ∧
      displayStart 1000 .m1 = 1000 - lookbackDays .m1 ∧
      runApp 1000 .m1 c8download c8fetch =
        runPipeline (c8download "2y") (c8fetch (displayStart 1000 .m1 - 150))
          (displayStart 1000 .m1) ∧
      runApp 1000 .m1 c8download c8fetch =
        specOrderPipeline (c8download "2y") (c8fetch (displayStart 1000 .m1 - 150))
          (displayStart 1000 .m1)) :=
  ⟨by decide, c8_window_semantics 1000 .m1 c8download c8fetch (by decide)⟩
